import Mathlib

/-!
Verification development for the Flashbook rust matching engine
(`rust_matching_engine/src/lib.rs` and `src/bin/subscriber.rs`).

Shallow embedding conventions:
* `rust_decimal::Decimal` prices are embedded as `Int`.  The engine only ever
  copies, compares (`<`, `≤`, `=`) and orders prices — it never performs
  arithmetic on them — and `Decimal` is an exact linearly ordered type, so any
  linear order embedding is faithful to every operation the code performs.
* `u64` quantities are embedded as `Nat`.  The only subtraction the code
  performs is `x - min x y`-shaped and can never underflow.
* `Uuid` identifiers are embedded as `Nat`; `Uuid::new_v4()` for trades is
  modelled by an explicit fresh-counter argument threaded through matching.
* `DateTime<Utc>` timestamps are embedded as `Nat`; each `Utc::now()` call is
  modelled by an explicit `now : Nat` argument.
* `BTreeMap<Decimal, VecDeque<Order>>` is embedded as an association list
  sorted strictly ascending by key; ascending iteration is front-to-back,
  `iter().rev()` is `List.reverse`.
-/

inductive OrderSide where
  | Buy
  | Sell
deriving DecidableEq, Repr

inductive OrderStatus where
  | New
  | Accepted
  | Rejected
  | Filled
  | PartiallyFilled
  | Cancelled
deriving DecidableEq, Repr

structure Order where
  id : Nat
  side : OrderSide
  symbol : String
  price : Int
  quantity : Nat
  timestamp : Nat
  status : OrderStatus
  remaining_quantity : Nat
deriving DecidableEq, Repr

structure Trade where
  trade_id : Nat
  symbol : String
  price : Int
  quantity : Nat
  taker_order_id : Nat
  maker_order_id : Nat
  timestamp : Nat
deriving DecidableEq, Repr

structure BboUpdate where
  symbol : String
  bid_price : Option Int
  bid_qty : Option Nat
  ask_price : Option Int
  ask_qty : Option Nat
  timestamp : Nat
deriving DecidableEq, Repr

structure PriceLevelInfo where
  price : Int
  quantity : Nat
deriving DecidableEq, Repr

structure OrderBookSnapshot where
  symbol : String
  bids : List PriceLevelInfo
  asks : List PriceLevelInfo
  timestamp : Nat
deriving DecidableEq, Repr

/-- `type PriceLevel = VecDeque<Order>`. -/
abbrev PriceLevel := List Order

/-- One side of the book: `BTreeMap<Decimal, PriceLevel>` as an association
list with strictly ascending keys. -/
abbrev SideMap := List (Int × PriceLevel)

structure OrderBook where
  symbol : String
  bids : SideMap
  asks : SideMap
  last_bbo : Option BboUpdate
  last_snapshot : Option OrderBookSnapshot
deriving DecidableEq, Repr

/-- `OrderBook::new`. -/
def OrderBook.new (symbol : String) : OrderBook :=
  { symbol := symbol, bids := [], asks := [], last_bbo := none, last_snapshot := none }

/-- `BboUpdate::new`: the constructor filters out zero quantities
(`bid_qty.filter(|&q| q > 0)`), and stamps the current time. -/
def BboUpdate.new (symbol : String) (bid_price : Option Int) (bid_qty : Option Nat)
    (ask_price : Option Int) (ask_qty : Option Nat) (now : Nat) : BboUpdate :=
  { symbol := symbol
    bid_price := bid_price
    bid_qty := match bid_qty with
      | some q => if 0 < q then some q else none
      | none => none
    ask_price := ask_price
    ask_qty := match ask_qty with
      | some q => if 0 < q then some q else none
      | none => none
    timestamp := now }

/-- `Order::ensure_remaining_quantity`: reset `remaining_quantity` to
`quantity` when it is zero or exceeds `quantity`, and always when the status
is `New`. -/
def ensure_remaining_quantity (o : Order) : Order :=
  { o with remaining_quantity :=
      if o.status = OrderStatus.New then o.quantity
      else if o.remaining_quantity = 0 ∨ o.quantity < o.remaining_quantity then o.quantity
      else o.remaining_quantity }

/-- Aggregate remaining quantity of a price level:
`level.iter().map(|o| o.remaining_quantity).sum()`. -/
def levelQty (lvl : PriceLevel) : Nat :=
  (lvl.map (fun o => o.remaining_quantity)).sum

/-- The key list of one side of the book. -/
def sideKeys (s : SideMap) : List Int :=
  s.map Prod.fst

/-- All resting orders of one side, best-unordered raw concatenation in key
order. -/
def flattenSide (s : SideMap) : List Order :=
  (s.map Prod.snd).flatten

/-- First-match association lookup; absent keys give the empty level. -/
def getLevel (s : SideMap) (p : Int) : PriceLevel :=
  match s with
  | [] => []
  | (q, lvl) :: rest => if p = q then lvl else getLevel rest p

/-- `OrderBook::get_bbo_with_qty`: best bid is the last `BTreeMap` key, best
ask the first; each aggregate quantity is reported only when positive. -/
def OrderBook.get_bbo_with_qty (b : OrderBook) :
    Option Int × Option Nat × Option Int × Option Nat :=
  let bidQty : Option Nat :=
    match b.bids.getLast? with
    | some e => if 0 < levelQty e.2 then some (levelQty e.2) else none
    | none => none
  let askQty : Option Nat :=
    match b.asks.head? with
    | some e => if 0 < levelQty e.2 then some (levelQty e.2) else none
    | none => none
  ((sideKeys b.bids).getLast?, bidQty, (sideKeys b.asks).head?, askQty)

/-- `OrderBook::get_snapshot`: take the top `depth` levels per side (bids
descending via `iter().rev()`, asks ascending), aggregate each level's
remaining quantity, then drop levels whose aggregate is zero. -/
def OrderBook.get_snapshot (b : OrderBook) (now : Nat) (depth : Nat) : OrderBookSnapshot :=
  { symbol := b.symbol
    bids := ((b.bids.reverse.take depth).map
        (fun e => PriceLevelInfo.mk e.1 (levelQty e.2))).filter
      (fun l => decide (0 < l.quantity))
    asks := ((b.asks.take depth).map
        (fun e => PriceLevelInfo.mk e.1 (levelQty e.2))).filter
      (fun l => decide (0 < l.quantity))
    timestamp := now }

/-- Result of the inner matching loop over one price level. -/
structure MakersResult where
  rem : Nat
  trades : List Trade
  queue : List Order
  fresh : Nat
deriving Repr

/-- The inner loop of `OrderBook::add_order` over the FIFO queue of one price
level: for each maker in arrival order, while the taker has remaining
quantity, trade `min(taker_rem, maker_rem)`; decrement both sides; mark the
maker `Filled` when its remainder reaches zero, else `PartiallyFilled`.
`fresh` supplies the trade identifiers, `now` the trade timestamps. -/
def matchMakers (sym : String) (tid now : Nat) : Nat → List Order → Nat → MakersResult
  | rem, [], fresh => ⟨rem, [], [], fresh⟩
  | rem, m :: rest, fresh =>
    if rem = 0 then ⟨rem, [], m :: rest, fresh⟩
    else
      let q := min rem m.remaining_quantity
      if 0 < q then
        let m' : Order :=
          { m with remaining_quantity := m.remaining_quantity - q
                   status := if m.remaining_quantity - q = 0 then OrderStatus.Filled
                     else OrderStatus.PartiallyFilled }
        let r := matchMakers sym tid now (rem - q) rest (fresh + 1)
        ⟨r.rem,
         { trade_id := fresh, symbol := sym, price := m.price, quantity := q,
           taker_order_id := tid, maker_order_id := m.id, timestamp := now } :: r.trades,
         m' :: r.queue, r.fresh⟩
      else
        let r := matchMakers sym tid now rem rest fresh
        ⟨r.rem, r.trades, m :: r.queue, r.fresh⟩

/-- Result of the outer matching loop over the price levels of a side. -/
structure LevelsResult where
  rem : Nat
  trades : List Trade
  levels : SideMap
  fresh : Nat
deriving Repr

/-- The retain predicate of `add_order`'s lazy pruning:
`price_level.retain(|o| o.status != OrderStatus::Filled)`. -/
def notFilled (o : Order) : Bool :=
  decide (o.status ≠ OrderStatus.Filled)

/-- The outer loop of `OrderBook::add_order` over the price levels of the
matched side, in iteration order (ascending asks for a buy; the caller passes
the reversed bid list for a sell).  The loop stops as soon as the taker is
exhausted or the level price no longer crosses the taker's limit
(`crosses`); after visiting a level it prunes `Filled` makers and drops the
level when it became empty. -/
def matchLevels (sym : String) (tid now : Nat) (crosses : Int → Bool) :
    Nat → SideMap → Nat → LevelsResult
  | rem, [], fresh => ⟨rem, [], [], fresh⟩
  | rem, (p, lvl) :: rest, fresh =>
    if rem = 0 ∨ crosses p = false then ⟨rem, [], (p, lvl) :: rest, fresh⟩
    else
      let r1 := matchMakers sym tid now rem lvl fresh
      let lvl2 := r1.queue.filter notFilled
      let r2 := matchLevels sym tid now crosses r1.rem rest r1.fresh
      ⟨r2.rem, r1.trades ++ r2.trades,
       if lvl2.isEmpty then r2.levels else (p, lvl2) :: r2.levels, r2.fresh⟩

/-- `self.bids.entry(order.price).or_default().push_back(order)` on the sorted
association list: append the order at the back of its price's queue, creating
the level (in key order) when absent. -/
def insertOrder : SideMap → Int → Order → SideMap
  | [], p, o => [(p, [o])]
  | (q, lvl) :: rest, p, o =>
    if p < q then (p, [o]) :: (q, lvl) :: rest
    else if p = q then (q, lvl ++ [o]) :: rest
    else (q, lvl) :: insertOrder rest p o

/-- Result of `OrderBook::add_order`. -/
structure AddResult where
  status : OrderStatus
  trades : List Trade
  book : OrderBook
deriving Repr

/-- `OrderBook::add_order`.  `now` models the `Utc::now()` readings and
`fresh` the first fresh trade identifier of this call. -/
def OrderBook.add_order (b : OrderBook) (now fresh : Nat) (incoming : Order) : AddResult :=
  let o0 := ensure_remaining_quantity incoming
  if o0.symbol ≠ b.symbol then ⟨OrderStatus.Rejected, [], b⟩
  else if o0.price ≤ 0 ∨ o0.quantity = 0 then ⟨OrderStatus.Rejected, [], b⟩
  else
    let o1 := if o0.status = OrderStatus.New then { o0 with status := OrderStatus.Accepted } else o0
    match o1.side with
    | OrderSide.Buy =>
      let r := matchLevels b.symbol o1.id now (fun p => decide (p ≤ o1.price))
        o1.remaining_quantity b.asks fresh
      if r.rem = 0 then ⟨OrderStatus.Filled, r.trades, { b with asks := r.levels }⟩
      else
        let st := if r.rem < o1.quantity then OrderStatus.PartiallyFilled else OrderStatus.Accepted
        let o2 := { o1 with remaining_quantity := r.rem, status := st }
        ⟨st, r.trades, { b with asks := r.levels, bids := insertOrder b.bids o2.price o2 }⟩
    | OrderSide.Sell =>
      let r := matchLevels b.symbol o1.id now (fun p => decide (o1.price ≤ p))
        o1.remaining_quantity b.bids.reverse fresh
      if r.rem = 0 then ⟨OrderStatus.Filled, r.trades, { b with bids := r.levels.reverse }⟩
      else
        let st := if r.rem < o1.quantity then OrderStatus.PartiallyFilled else OrderStatus.Accepted
        let o2 := { o1 with remaining_quantity := r.rem, status := st }
        ⟨st, r.trades, { b with bids := r.levels.reverse, asks := insertOrder b.asks o2.price o2 }⟩

/-- Modelled from the spec: `clear_book()` is invoked by the subscriber's
market-event handler but its definition is absent from the library source
under `src/`; the spec says it drops all resting orders and resets the cached
projections. -/
def OrderBook.clear_book (b : OrderBook) : OrderBook :=
  { b with bids := [], asks := [], last_bbo := none, last_snapshot := none }

/-- `SNAPSHOT_DEPTH` in `subscriber.rs`. -/
def SNAPSHOT_DEPTH : Nat := 5

/-- Outcome of the subscriber's order-submission handler on one book. -/
structure ProcessResult where
  book : OrderBook
  status : OrderStatus
  trades : List Trade
  bboEmitted : Bool
  snapEmitted : Bool
deriving Repr

/-- The order-submission path of `subscriber.rs`: run `add_order`, recompute
the BBO and the depth-5 snapshot, and emit each one exactly when it differs
from the cached last value under derived `PartialEq` — which compares every
field, the `timestamp` included — updating the cache on emission. -/
def processOrder (b : OrderBook) (now fresh : Nat) (o : Order) : ProcessResult :=
  let res := b.add_order now fresh o
  let b1 := res.book
  let bbo :=
    BboUpdate.new b1.symbol b1.get_bbo_with_qty.1 b1.get_bbo_with_qty.2.1
      b1.get_bbo_with_qty.2.2.1 b1.get_bbo_with_qty.2.2.2 now
  let bboChanged : Bool := decide (b1.last_bbo ≠ some bbo)
  let b2 := if bboChanged then { b1 with last_bbo := some bbo } else b1
  let snap := b2.get_snapshot now SNAPSHOT_DEPTH
  let snapChanged : Bool := decide (b2.last_snapshot ≠ some snap)
  let b3 := if snapChanged then { b2 with last_snapshot := some snap } else b2
  ⟨b3, res.status, res.trades, bboChanged, snapChanged⟩

/-! ## Analysis predicates -/

/-- The two orders agree on every field except possibly `remaining_quantity`
and `status`. -/
def coreEq (a b : Order) : Prop :=
  a.id = b.id ∧ a.side = b.side ∧ a.symbol = b.symbol ∧ a.price = b.price ∧
    a.quantity = b.quantity ∧ a.timestamp = b.timestamp

/-- The reachable-book shape of a resting order: never `Filled`, always with
positive remaining quantity (invariant I6 of the spec). -/
def validResting (o : Order) : Prop :=
  o.status ≠ OrderStatus.Filled ∧ 0 < o.remaining_quantity

/-- Every resting order of the side is in reachable shape. -/
def ValidSide (s : SideMap) : Prop :=
  ∀ o ∈ flattenSide s, validResting o

/-- Strictly ascending keys — the `BTreeMap` representation invariant. -/
def SortedSide (s : SideMap) : Prop :=
  (sideKeys s).Pairwise (fun a b => a < b)

/-- No level of the side is an empty queue (spec invariant I3). -/
def NoEmptyLevels (s : SideMap) : Prop :=
  ∀ e ∈ s, e.2 ≠ []

/-- Every order rests at the level keyed by its own limit price. -/
def PriceCoherent (s : SideMap) : Prop :=
  ∀ e ∈ s, ∀ o ∈ e.2, o.price = e.1

/-- Boolean non-crossed check over the best (last) bid key and best (first)
ask key. -/
def nonCrossedB (b : OrderBook) : Bool :=
  match (sideKeys b.bids).getLast?, (sideKeys b.asks).head? with
  | some pb, some pa => decide (pb < pa)
  | _, _ => true

/-- Spec invariant I2: whenever both sides are non-empty, the best bid price
is strictly below the best ask price. -/
def NonCrossed (b : OrderBook) : Prop :=
  nonCrossedB b = true

instance (o : Order) : Decidable (validResting o) :=
  inferInstanceAs (Decidable (o.status ≠ OrderStatus.Filled ∧ 0 < o.remaining_quantity))

instance (s : SideMap) : Decidable (ValidSide s) :=
  inferInstanceAs (Decidable (∀ o ∈ flattenSide s, validResting o))

instance (s : SideMap) : Decidable (SortedSide s) :=
  inferInstanceAs (Decidable ((sideKeys s).Pairwise (fun a b => a < b)))

instance (s : SideMap) : Decidable (NoEmptyLevels s) :=
  inferInstanceAs (Decidable (∀ e ∈ s, e.2 ≠ []))

instance (s : SideMap) : Decidable (PriceCoherent s) :=
  inferInstanceAs (Decidable (∀ e ∈ s, ∀ o ∈ e.2, o.price = e.1))

instance (b : OrderBook) : Decidable (NonCrossed b) :=
  inferInstanceAs (Decidable (nonCrossedB b = true))

/-- The queue `new` is what head-first consumption leaves of the queue `old`:
a suffix of `old`, in which at most the first surviving order was partially
consumed (same core fields, strictly smaller but still positive remainder,
status `PartiallyFilled`). -/
def consumedFrom (old new : List Order) : Prop :=
  ∃ k, new = old.drop k ∨
    ∃ m m', old.drop k = m :: old.drop (k + 1) ∧ coreEq m m' ∧
      m'.remaining_quantity < m.remaining_quantity ∧ 0 < m'.remaining_quantity ∧
      m'.status = OrderStatus.PartiallyFilled ∧ new = m' :: old.drop (k + 1)

/-! ## Equation lemmas for the matching loops -/

theorem matchMakers_nil (sym : String) (tid now rem fresh : Nat) :
    matchMakers sym tid now rem [] fresh = ⟨rem, [], [], fresh⟩ := by
  simp [matchMakers]

theorem matchMakers_cons_zero (sym : String) (tid now fresh : Nat) (m : Order)
    (rest : List Order) :
    matchMakers sym tid now 0 (m :: rest) fresh = ⟨0, [], m :: rest, fresh⟩ := by
  simp [matchMakers]

theorem matchMakers_zero (sym : String) (tid now fresh : Nat) (ms : List Order) :
    matchMakers sym tid now 0 ms fresh = ⟨0, [], ms, fresh⟩ := by
  cases ms with
  | nil => simp [matchMakers]
  | cons m rest => exact matchMakers_cons_zero sym tid now fresh m rest

theorem matchMakers_cons_trade (sym : String) (tid now rem fresh : Nat) (m : Order)
    (rest : List Order) (h0 : rem ≠ 0) (hq : 0 < min rem m.remaining_quantity) :
    matchMakers sym tid now rem (m :: rest) fresh =
      ⟨(matchMakers sym tid now (rem - min rem m.remaining_quantity) rest (fresh + 1)).rem,
       { trade_id := fresh, symbol := sym, price := m.price,
         quantity := min rem m.remaining_quantity,
         taker_order_id := tid, maker_order_id := m.id, timestamp := now } ::
         (matchMakers sym tid now (rem - min rem m.remaining_quantity) rest (fresh + 1)).trades,
       { m with remaining_quantity := m.remaining_quantity - min rem m.remaining_quantity,
                status := if m.remaining_quantity - min rem m.remaining_quantity = 0
                  then OrderStatus.Filled else OrderStatus.PartiallyFilled } ::
         (matchMakers sym tid now (rem - min rem m.remaining_quantity) rest (fresh + 1)).queue,
       (matchMakers sym tid now (rem - min rem m.remaining_quantity) rest (fresh + 1)).fresh⟩ := by
  simp [matchMakers, h0, hq]

theorem matchMakers_cons_skip (sym : String) (tid now rem fresh : Nat) (m : Order)
    (rest : List Order) (h0 : rem ≠ 0) (hq : ¬ 0 < min rem m.remaining_quantity) :
    matchMakers sym tid now rem (m :: rest) fresh =
      ⟨(matchMakers sym tid now rem rest fresh).rem,
       (matchMakers sym tid now rem rest fresh).trades,
       m :: (matchMakers sym tid now rem rest fresh).queue,
       (matchMakers sym tid now rem rest fresh).fresh⟩ := by
  simp [matchMakers, h0, hq]

theorem matchLevels_nil (sym : String) (tid now : Nat) (crosses : Int → Bool)
    (rem fresh : Nat) :
    matchLevels sym tid now crosses rem [] fresh = ⟨rem, [], [], fresh⟩ := by
  simp [matchLevels]

theorem matchLevels_stop (sym : String) (tid now : Nat) (crosses : Int → Bool)
    (rem fresh : Nat) (p : Int) (lvl : PriceLevel) (rest : SideMap)
    (h : rem = 0 ∨ crosses p = false) :
    matchLevels sym tid now crosses rem ((p, lvl) :: rest) fresh =
      ⟨rem, [], (p, lvl) :: rest, fresh⟩ := by
  simp [matchLevels, h]

theorem matchLevels_go (sym : String) (tid now : Nat) (crosses : Int → Bool)
    (rem fresh : Nat) (p : Int) (lvl : PriceLevel) (rest : SideMap)
    (h : ¬ (rem = 0 ∨ crosses p = false)) :
    matchLevels sym tid now crosses rem ((p, lvl) :: rest) fresh =
      ⟨(matchLevels sym tid now crosses (matchMakers sym tid now rem lvl fresh).rem rest
          (matchMakers sym tid now rem lvl fresh).fresh).rem,
       (matchMakers sym tid now rem lvl fresh).trades ++
         (matchLevels sym tid now crosses (matchMakers sym tid now rem lvl fresh).rem rest
           (matchMakers sym tid now rem lvl fresh).fresh).trades,
       if ((matchMakers sym tid now rem lvl fresh).queue.filter notFilled).isEmpty
         then (matchLevels sym tid now crosses (matchMakers sym tid now rem lvl fresh).rem rest
           (matchMakers sym tid now rem lvl fresh).fresh).levels
         else (p, (matchMakers sym tid now rem lvl fresh).queue.filter notFilled) ::
           (matchLevels sym tid now crosses (matchMakers sym tid now rem lvl fresh).rem rest
             (matchMakers sym tid now rem lvl fresh).fresh).levels,
       (matchLevels sym tid now crosses (matchMakers sym tid now rem lvl fresh).rem rest
         (matchMakers sym tid now rem lvl fresh).fresh).fresh⟩ := by
  simp [matchLevels, h]

/-! ## Inner-loop lemmas -/

theorem filter_notFilled_eq_self {ms : List Order}
    (H : ∀ o ∈ ms, o.status ≠ OrderStatus.Filled) : ms.filter notFilled = ms :=
  List.filter_eq_self.mpr (fun o ho => by simpa [notFilled] using H o ho)

theorem matchMakers_rem_le (sym : String) (tid now : Nat) (ms : List Order)
    (rem fresh : Nat) : (matchMakers sym tid now rem ms fresh).rem ≤ rem := by
  induction ms generalizing rem fresh with
  | nil => rw [matchMakers_nil]
  | cons m rest ih =>
    by_cases h0 : rem = 0
    · subst h0; rw [matchMakers_cons_zero]
    · by_cases hq : 0 < min rem m.remaining_quantity
      · rw [matchMakers_cons_trade sym tid now rem fresh m rest h0 hq]
        dsimp only
        have h1 := ih (rem - min rem m.remaining_quantity) (fresh + 1)
        omega
      · rw [matchMakers_cons_skip sym tid now rem fresh m rest h0 hq]
        exact ih rem fresh

theorem consumedFrom_cons {x : Order} {old new : List Order}
    (h : consumedFrom old new) : consumedFrom (x :: old) new := by
  obtain ⟨k, hk⟩ := h
  exact ⟨k + 1, by simpa [List.drop_succ_cons] using hk⟩

theorem matchMakers_consumed (sym : String) (tid now : Nat) (ms : List Order)
    (rem fresh : Nat) (H : ∀ o ∈ ms, validResting o) :
    consumedFrom ms ((matchMakers sym tid now rem ms fresh).queue.filter notFilled) := by
  induction ms generalizing rem fresh with
  | nil => exact ⟨0, Or.inl (by simp [matchMakers_nil])⟩
  | cons m rest ih =>
    have hm := H m (List.mem_cons_self m rest)
    have Hrest : ∀ o ∈ rest, validResting o := fun o ho => H o (List.mem_cons_of_mem m ho)
    by_cases h0 : rem = 0
    · refine ⟨0, Or.inl ?_⟩
      subst h0
      rw [matchMakers_cons_zero]
      exact (filter_notFilled_eq_self (fun o ho => (H o ho).1)).trans (List.drop_zero _).symm
    · have hminpos : 0 < min rem m.remaining_quantity := by
        have h2 := hm.2; omega
      rw [matchMakers_cons_trade sym tid now rem fresh m rest h0 hminpos]
      by_cases hfz : m.remaining_quantity - min rem m.remaining_quantity = 0
      · have hst : notFilled
            { m with remaining_quantity := m.remaining_quantity - min rem m.remaining_quantity,
                     status := if m.remaining_quantity - min rem m.remaining_quantity = 0
                       then OrderStatus.Filled else OrderStatus.PartiallyFilled } = false := by
          simp [notFilled, hfz]
        dsimp only
        rw [List.filter_cons, hst]
        simp only [Bool.false_eq_true, if_false]
        exact consumedFrom_cons
          (ih (rem - min rem m.remaining_quantity) (fresh + 1) Hrest)
      · have hz : rem - min rem m.remaining_quantity = 0 := by omega
        dsimp only
        rw [hz, matchMakers_zero]
        have hst : notFilled
            { m with remaining_quantity := m.remaining_quantity - min rem m.remaining_quantity,
                     status := if m.remaining_quantity - min rem m.remaining_quantity = 0
                       then OrderStatus.Filled else OrderStatus.PartiallyFilled } = true := by
          simp [notFilled, hfz]
        dsimp only
        rw [List.filter_cons, hst]
        simp only [if_true]
        refine ⟨0, Or.inr ⟨m,
          { m with remaining_quantity := m.remaining_quantity - min rem m.remaining_quantity,
                   status := if m.remaining_quantity - min rem m.remaining_quantity = 0
                     then OrderStatus.Filled else OrderStatus.PartiallyFilled },
          by simp, ⟨rfl, rfl, rfl, rfl, rfl, rfl⟩, ?_, ?_, ?_, ?_⟩⟩
        · show m.remaining_quantity - min rem m.remaining_quantity < m.remaining_quantity
          omega
        · show 0 < m.remaining_quantity - min rem m.remaining_quantity
          omega
        · show (if m.remaining_quantity - min rem m.remaining_quantity = 0
              then OrderStatus.Filled else OrderStatus.PartiallyFilled) = OrderStatus.PartiallyFilled
          simp [hfz]
        · simp [filter_notFilled_eq_self (fun o ho => (Hrest o ho).1)]

theorem matchMakers_filter_empty (sym : String) (tid now : Nat) (ms : List Order)
    (rem fresh : Nat) (H : ∀ o ∈ ms, validResting o)
    (hrem : 0 < (matchMakers sym tid now rem ms fresh).rem) :
    (matchMakers sym tid now rem ms fresh).queue.filter notFilled = [] := by
  induction ms generalizing rem fresh with
  | nil => simp [matchMakers_nil]
  | cons m rest ih =>
    have hm := H m (List.mem_cons_self m rest)
    have Hrest : ∀ o ∈ rest, validResting o := fun o ho => H o (List.mem_cons_of_mem m ho)
    by_cases h0 : rem = 0
    · subst h0
      rw [matchMakers_cons_zero] at hrem
      exact absurd hrem (by simp)
    · have hminpos : 0 < min rem m.remaining_quantity := by
        have h2 := hm.2; omega
      rw [matchMakers_cons_trade sym tid now rem fresh m rest h0 hminpos] at hrem ⊢
      dsimp only at hrem ⊢
      by_cases hfz : m.remaining_quantity - min rem m.remaining_quantity = 0
      · have hst : notFilled
            { m with remaining_quantity := m.remaining_quantity - min rem m.remaining_quantity,
                     status := if m.remaining_quantity - min rem m.remaining_quantity = 0
                       then OrderStatus.Filled else OrderStatus.PartiallyFilled } = false := by
          simp [notFilled, hfz]
        rw [List.filter_cons, hst]
        simp only [Bool.false_eq_true, if_false]
        exact ih (rem - min rem m.remaining_quantity) (fresh + 1) Hrest hrem
      · exfalso
        have hz : rem - min rem m.remaining_quantity = 0 := by omega
        rw [hz, matchMakers_zero] at hrem
        exact absurd hrem (by simp)

theorem matchMakers_trades (sym : String) (tid now : Nat) (ms : List Order)
    (rem fresh : Nat) :
    ∀ t ∈ (matchMakers sym tid now rem ms fresh).trades,
      ∃ m ∈ ms, t.maker_order_id = m.id ∧ t.price = m.price ∧
        t.taker_order_id = tid ∧ t.symbol = sym ∧ 0 < t.quantity ∧ t.timestamp = now := by
  induction ms generalizing rem fresh with
  | nil => simp [matchMakers_nil]
  | cons m rest ih =>
    intro t ht
    by_cases h0 : rem = 0
    · subst h0
      rw [matchMakers_cons_zero] at ht
      exact absurd ht (by simp)
    · by_cases hq : 0 < min rem m.remaining_quantity
      · rw [matchMakers_cons_trade sym tid now rem fresh m rest h0 hq] at ht
        dsimp only at ht
        rcases List.mem_cons.mp ht with h | h
        · subst h
          exact ⟨m, List.mem_cons_self m rest, rfl, rfl, rfl, rfl, hq, rfl⟩
        · obtain ⟨m₀, hmem, hrest⟩ := ih (rem - min rem m.remaining_quantity) (fresh + 1) t h
          exact ⟨m₀, List.mem_cons_of_mem m hmem, hrest⟩
      · rw [matchMakers_cons_skip sym tid now rem fresh m rest h0 hq] at ht
        dsimp only at ht
        obtain ⟨m₀, hmem, hrest⟩ := ih rem fresh t ht
        exact ⟨m₀, List.mem_cons_of_mem m hmem, hrest⟩

/-! ## The spec's trade relation

`TradeStep` formalises the spec sentence for a single match: the trade
quantity is `min` of the taker's and the maker's remaining quantities at that
moment, both lose exactly that quantity, the maker becomes `Filled` exactly
when its remainder reaches zero and `PartiallyFilled` otherwise, and every
other resting order is untouched.  `TradeChain` strings the produced trades
together in emission order. -/

inductive TradeStep (tid : Nat) : Nat × List Order → Trade → Nat × List Order → Prop where
  | step (rem : Nat) (pre post : List Order) (m : Order) (t : Trade)
      (hq : t.quantity = min rem m.remaining_quantity)
      (hpos : 0 < t.quantity)
      (htak : t.taker_order_id = tid)
      (hmak : t.maker_order_id = m.id) :
      TradeStep tid (rem, pre ++ m :: post) t
        (rem - t.quantity,
         pre ++ { m with remaining_quantity := m.remaining_quantity - t.quantity,
                         status := if m.remaining_quantity - t.quantity = 0
                           then OrderStatus.Filled else OrderStatus.PartiallyFilled } :: post)

inductive TradeChain (tid : Nat) : Nat → List Order → List Trade → Nat → List Order → Prop where
  | nil (rem : Nat) (ms : List Order) : TradeChain tid rem ms [] rem ms
  | cons {rem₁ rem₂ rem₃ : Nat} {ms₁ ms₂ ms₃ : List Order} {t : Trade} {ts : List Trade} :
      TradeStep tid (rem₁, ms₁) t (rem₂, ms₂) →
      TradeChain tid rem₂ ms₂ ts rem₃ ms₃ →
      TradeChain tid rem₁ ms₁ (t :: ts) rem₃ ms₃

theorem TradeStep.liftStep {tid : Nat} (xs ys : List Order) {s s' : Nat × List Order} {t : Trade}
    (h : TradeStep tid s t s') :
    TradeStep tid (s.1, xs ++ s.2 ++ ys) t (s'.1, xs ++ s'.2 ++ ys) := by
  cases h with
  | step rem pre post m t hq hpos htak hmak =>
    have h2 := TradeStep.step rem (xs ++ pre) (post ++ ys) m t hq hpos htak hmak
    simpa [List.append_assoc] using h2

theorem TradeChain.liftChain {tid : Nat} (xs ys : List Order) {rem rem' : Nat}
    {ms ms' : List Order} {ts : List Trade} (h : TradeChain tid rem ms ts rem' ms') :
    TradeChain tid rem (xs ++ ms ++ ys) ts rem' (xs ++ ms' ++ ys) := by
  induction h with
  | nil rem ms => exact TradeChain.nil rem (xs ++ ms ++ ys)
  | cons hstep hchain ih => exact TradeChain.cons (TradeStep.liftStep xs ys hstep) ih

theorem TradeChain.consLift {tid : Nat} (x : Order) {rem rem' : Nat}
    {ms ms' : List Order} {ts : List Trade} (h : TradeChain tid rem ms ts rem' ms') :
    TradeChain tid rem (x :: ms) ts rem' (x :: ms') := by
  have h2 := TradeChain.liftChain [x] [] h
  simpa using h2

theorem TradeChain.append {tid : Nat} {rem₁ rem₂ rem₃ : Nat}
    {ms₁ ms₂ ms₃ : List Order} {ts₁ ts₂ : List Trade}
    (h₁ : TradeChain tid rem₁ ms₁ ts₁ rem₂ ms₂)
    (h₂ : TradeChain tid rem₂ ms₂ ts₂ rem₃ ms₃) :
    TradeChain tid rem₁ ms₁ (ts₁ ++ ts₂) rem₃ ms₃ := by
  induction h₁ with
  | nil rem ms => simpa using h₂
  | cons hstep hchain ih => exact TradeChain.cons hstep (ih h₂)

theorem TradeChain.sum_quantity {tid rem rem' : Nat} {ms ms' : List Order} {ts : List Trade}
    (h : TradeChain tid rem ms ts rem' ms') :
    rem' + (ts.map (fun t => t.quantity)).sum = rem := by
  induction h with
  | nil rem ms => simp
  | cons hstep hchain ih =>
    cases hstep with
    | step rem pre post m t hq hpos htak hmak =>
      simp only [List.map_cons, List.sum_cons]
      omega

theorem matchMakers_chain (sym : String) (tid now : Nat) (ms : List Order)
    (rem fresh : Nat) :
    TradeChain tid rem ms (matchMakers sym tid now rem ms fresh).trades
      (matchMakers sym tid now rem ms fresh).rem
      (matchMakers sym tid now rem ms fresh).queue := by
  induction ms generalizing rem fresh with
  | nil =>
    rw [matchMakers_nil]
    exact TradeChain.nil rem []
  | cons m rest ih =>
    by_cases h0 : rem = 0
    · subst h0
      rw [matchMakers_cons_zero]
      exact TradeChain.nil 0 (m :: rest)
    · by_cases hq : 0 < min rem m.remaining_quantity
      · rw [matchMakers_cons_trade sym tid now rem fresh m rest h0 hq]
        dsimp only
        refine TradeChain.cons ?_ (TradeChain.consLift _ (ih (rem - min rem m.remaining_quantity) (fresh + 1)))
        exact TradeStep.step rem [] rest m
          { trade_id := fresh, symbol := sym, price := m.price,
            quantity := min rem m.remaining_quantity,
            taker_order_id := tid, maker_order_id := m.id, timestamp := now }
          rfl hq rfl rfl
      · rw [matchMakers_cons_skip sym tid now rem fresh m rest h0 hq]
        dsimp only
        exact TradeChain.consLift m (ih rem fresh)

/-! ## Outer-loop lemmas -/

theorem flattenSide_nil : flattenSide [] = [] := rfl

theorem flattenSide_cons (p : Int) (lvl : PriceLevel) (rest : SideMap) :
    flattenSide ((p, lvl) :: rest) = lvl ++ flattenSide rest := by
  simp [flattenSide]

theorem matchLevels_rem_le (sym : String) (tid now : Nat) (crosses : Int → Bool)
    (levels : SideMap) (rem fresh : Nat) :
    (matchLevels sym tid now crosses rem levels fresh).rem ≤ rem := by
  induction levels generalizing rem fresh with
  | nil => rw [matchLevels_nil]
  | cons e rest ih =>
    obtain ⟨p, lvl⟩ := e
    by_cases hstop : rem = 0 ∨ crosses p = false
    · rw [matchLevels_stop sym tid now crosses rem fresh p lvl rest hstop]
    · rw [matchLevels_go sym tid now crosses rem fresh p lvl rest hstop]
      dsimp only
      exact le_trans (ih _ _) (matchMakers_rem_le sym tid now lvl rem fresh)

theorem matchLevels_keys_sublist (sym : String) (tid now : Nat) (crosses : Int → Bool)
    (levels : SideMap) (rem fresh : Nat) :
    List.Sublist (sideKeys (matchLevels sym tid now crosses rem levels fresh).levels)
      (sideKeys levels) := by
  induction levels generalizing rem fresh with
  | nil => rw [matchLevels_nil]
  | cons e rest ih =>
    obtain ⟨p, lvl⟩ := e
    by_cases hstop : rem = 0 ∨ crosses p = false
    · rw [matchLevels_stop sym tid now crosses rem fresh p lvl rest hstop]
    · rw [matchLevels_go sym tid now crosses rem fresh p lvl rest hstop]
      dsimp only
      by_cases hemp : ((matchMakers sym tid now rem lvl fresh).queue.filter notFilled).isEmpty
      · rw [if_pos hemp]
        exact (ih _ _).trans (by simp [sideKeys])
      · rw [if_neg hemp]
        exact List.Sublist.cons₂ p (ih _ _)

theorem matchLevels_nonempty (sym : String) (tid now : Nat) (crosses : Int → Bool)
    (levels : SideMap) (rem fresh : Nat) (hne : ∀ e ∈ levels, e.2 ≠ []) :
    ∀ e ∈ (matchLevels sym tid now crosses rem levels fresh).levels, e.2 ≠ [] := by
  induction levels generalizing rem fresh with
  | nil => rw [matchLevels_nil]; simp
  | cons e0 rest ih =>
    obtain ⟨p, lvl⟩ := e0
    have hrest : ∀ e ∈ rest, e.2 ≠ [] := fun e he => hne e (List.mem_cons_of_mem _ he)
    by_cases hstop : rem = 0 ∨ crosses p = false
    · rw [matchLevels_stop sym tid now crosses rem fresh p lvl rest hstop]
      exact hne
    · rw [matchLevels_go sym tid now crosses rem fresh p lvl rest hstop]
      dsimp only
      by_cases hemp : ((matchMakers sym tid now rem lvl fresh).queue.filter notFilled).isEmpty
      · rw [if_pos hemp]
        exact ih _ _ hrest
      · rw [if_neg hemp]
        intro e he
        rcases List.mem_cons.mp he with h | h
        · subst h
          intro hnil
          exact hemp (by rw [List.isEmpty_iff]; exact hnil)
        · exact ih _ _ hrest e h

theorem matchLevels_mem (sym : String) (tid now : Nat) (crosses : Int → Bool)
    (levels : SideMap) (rem fresh : Nat) :
    ∀ e ∈ (matchLevels sym tid now crosses rem levels fresh).levels,
      e ∈ levels ∨ ∃ q rem0 f0, (e.1, q) ∈ levels ∧
        e.2 = ((matchMakers sym tid now rem0 q f0).queue).filter notFilled := by
  induction levels generalizing rem fresh with
  | nil => rw [matchLevels_nil]; simp
  | cons e0 rest ih =>
    obtain ⟨p, lvl⟩ := e0
    by_cases hstop : rem = 0 ∨ crosses p = false
    · rw [matchLevels_stop sym tid now crosses rem fresh p lvl rest hstop]
      exact fun e he => Or.inl he
    · rw [matchLevels_go sym tid now crosses rem fresh p lvl rest hstop]
      dsimp only
      intro e he
      by_cases hemp : ((matchMakers sym tid now rem lvl fresh).queue.filter notFilled).isEmpty
      · rw [if_pos hemp] at he
        rcases ih _ _ e he with h | ⟨q, rem0, f0, hq, heq⟩
        · exact Or.inl (List.mem_cons_of_mem _ h)
        · exact Or.inr ⟨q, rem0, f0, List.mem_cons_of_mem _ hq, heq⟩
      · rw [if_neg hemp] at he
        rcases List.mem_cons.mp he with h | h
        · subst h
          exact Or.inr ⟨lvl, rem, fresh, List.mem_cons_self _ _, rfl⟩
        · rcases ih _ _ e h with h2 | ⟨q, rem0, f0, hq, heq⟩
          · exact Or.inl (List.mem_cons_of_mem _ h2)
          · exact Or.inr ⟨q, rem0, f0, List.mem_cons_of_mem _ hq, heq⟩

theorem matchLevels_gone (sym : String) (tid now : Nat) (crosses : Int → Bool)
    (levels : SideMap) (rem fresh : Nat)
    (H : ∀ o ∈ flattenSide levels, validResting o)
    (hmono : (sideKeys levels).Pairwise (fun a b => crosses b = true → crosses a = true))
    (hrem : 0 < (matchLevels sym tid now crosses rem levels fresh).rem) :
    ∀ e ∈ (matchLevels sym tid now crosses rem levels fresh).levels, crosses e.1 = false := by
  induction levels generalizing rem fresh with
  | nil => rw [matchLevels_nil]; simp
  | cons e0 rest ih =>
    obtain ⟨p, lvl⟩ := e0
    have Hlvl : ∀ o ∈ lvl, validResting o := fun o ho =>
      H o (by rw [flattenSide_cons]; exact List.mem_append_left _ ho)
    have Hrest : ∀ o ∈ flattenSide rest, validResting o := fun o ho =>
      H o (by rw [flattenSide_cons]; exact List.mem_append_right _ ho)
    have hkeys : sideKeys ((p, lvl) :: rest) = p :: sideKeys rest := rfl
    rw [hkeys] at hmono
    have hmono' := List.pairwise_cons.mp hmono
    by_cases hstop : rem = 0 ∨ crosses p = false
    · rw [matchLevels_stop sym tid now crosses rem fresh p lvl rest hstop] at hrem ⊢
      have hp : crosses p = false := by
        rcases hstop with h | h
        · exact absurd hrem (by simp [h])
        · exact h
      intro e he
      rcases List.mem_cons.mp he with h | h
      · subst h; exact hp
      · by_cases hc : crosses e.1 = true
        · have h3 : crosses p = true :=
            hmono'.1 e.1 (List.mem_map_of_mem Prod.fst h) hc
          rw [hp] at h3
          exact absurd h3 (by simp)
        · simpa using hc
    · rw [matchLevels_go sym tid now crosses rem fresh p lvl rest hstop] at hrem ⊢
      dsimp only at hrem ⊢
      have hr1 : 0 < (matchMakers sym tid now rem lvl fresh).rem :=
        lt_of_lt_of_le hrem (matchLevels_rem_le sym tid now crosses rest _ _)
      have hemp : ((matchMakers sym tid now rem lvl fresh).queue.filter notFilled).isEmpty := by
        rw [matchMakers_filter_empty sym tid now lvl rem fresh Hlvl hr1]
        rfl
      rw [if_pos hemp]
      exact ih _ _ Hrest hmono'.2 hrem

theorem matchLevels_chain (sym : String) (tid now : Nat) (crosses : Int → Bool)
    (levels : SideMap) (rem fresh : Nat)
    (H : ∀ o ∈ flattenSide levels, o.status ≠ OrderStatus.Filled) :
    ∃ flat', TradeChain tid rem (flattenSide levels)
        (matchLevels sym tid now crosses rem levels fresh).trades
        (matchLevels sym tid now crosses rem levels fresh).rem flat' ∧
      flattenSide (matchLevels sym tid now crosses rem levels fresh).levels =
        flat'.filter notFilled := by
  induction levels generalizing rem fresh with
  | nil =>
    rw [matchLevels_nil]
    exact ⟨[], TradeChain.nil rem (flattenSide []), by simp [flattenSide]⟩
  | cons e0 rest ih =>
    obtain ⟨p, lvl⟩ := e0
    have Hlvl : ∀ o ∈ lvl, o.status ≠ OrderStatus.Filled := fun o ho =>
      H o (by rw [flattenSide_cons]; exact List.mem_append_left _ ho)
    have Hrest : ∀ o ∈ flattenSide rest, o.status ≠ OrderStatus.Filled := fun o ho =>
      H o (by rw [flattenSide_cons]; exact List.mem_append_right _ ho)
    by_cases hstop : rem = 0 ∨ crosses p = false
    · rw [matchLevels_stop sym tid now crosses rem fresh p lvl rest hstop]
      exact ⟨flattenSide ((p, lvl) :: rest), TradeChain.nil rem _,
        (filter_notFilled_eq_self H).symm⟩
    · rw [matchLevels_go sym tid now crosses rem fresh p lvl rest hstop]
      dsimp only
      obtain ⟨flat2, chain2, heq2⟩ := ih (matchMakers sym tid now rem lvl fresh).rem
        (matchMakers sym tid now rem lvl fresh).fresh Hrest
      have chain1 := matchMakers_chain sym tid now lvl rem fresh
      have chain1' := TradeChain.liftChain [] (flattenSide rest) chain1
      have chain2' := TradeChain.liftChain (matchMakers sym tid now rem lvl fresh).queue [] chain2
      rw [List.append_nil, List.append_nil] at chain2'
      have total := TradeChain.append chain1' chain2'
      refine ⟨(matchMakers sym tid now rem lvl fresh).queue ++ flat2, ?_, ?_⟩
      · rw [flattenSide_cons]
        simpa using total
      · rw [List.filter_append, ← heq2]
        by_cases hemp : ((matchMakers sym tid now rem lvl fresh).queue.filter notFilled).isEmpty
        · rw [if_pos hemp]
          rw [List.isEmpty_iff] at hemp
          rw [hemp]
          simp
        · rw [if_neg hemp]
          rw [flattenSide_cons]

theorem matchLevels_trades (sym : String) (tid now : Nat) (crosses : Int → Bool)
    (levels : SideMap) (rem fresh : Nat)
    (hcoh : ∀ e ∈ levels, ∀ o ∈ e.2, o.price = e.1) :
    ∀ t ∈ (matchLevels sym tid now crosses rem levels fresh).trades,
      crosses t.price = true ∧ ∃ m ∈ flattenSide levels,
        t.maker_order_id = m.id ∧ t.price = m.price ∧ t.taker_order_id = tid ∧
        t.symbol = sym ∧ 0 < t.quantity ∧ t.timestamp = now := by
  induction levels generalizing rem fresh with
  | nil => rw [matchLevels_nil]; simp
  | cons e0 rest ih =>
    obtain ⟨p, lvl⟩ := e0
    have hcohl : ∀ o ∈ lvl, o.price = p := hcoh (p, lvl) (List.mem_cons_self _ _)
    have hcohr : ∀ e ∈ rest, ∀ o ∈ e.2, o.price = e.1 := fun e he =>
      hcoh e (List.mem_cons_of_mem _ he)
    by_cases hstop : rem = 0 ∨ crosses p = false
    · rw [matchLevels_stop sym tid now crosses rem fresh p lvl rest hstop]
      simp
    · rw [matchLevels_go sym tid now crosses rem fresh p lvl rest hstop]
      dsimp only
      intro t ht
      have hcp : crosses p = true := by
        rcases Bool.eq_false_or_eq_true (crosses p) with h | h
        · exact h
        · exact absurd (Or.inr h) hstop
      rcases List.mem_append.mp ht with h | h
      · obtain ⟨m, hmem, h1, h2, h3, h4, h5, h6⟩ :=
          matchMakers_trades sym tid now lvl rem fresh t h
        refine ⟨?_, m, by rw [flattenSide_cons]; exact List.mem_append_left _ hmem,
          h1, h2, h3, h4, h5, h6⟩
        rw [h2, hcohl m hmem]
        exact hcp
      · obtain ⟨hc, m, hmem, hrest⟩ := ih _ _ hcohr t h
        exact ⟨hc, m, by rw [flattenSide_cons]; exact List.mem_append_right _ hmem, hrest⟩

/-! ## Sorted-key helper lemmas -/

theorem sorted_head_le {xs : List Int} {h x : Int}
    (hs : xs.Pairwise (fun a b => a < b)) (hh : xs.head? = some h) (hx : x ∈ xs) :
    h ≤ x := by
  cases xs with
  | nil => cases hx
  | cons a t =>
    have ha : a = h := by simpa using hh
    subst ha
    rcases List.mem_cons.mp hx with h2 | h2
    · exact le_of_eq h2.symm
    · exact le_of_lt ((List.pairwise_cons.mp hs).1 x h2)

theorem sortedDesc_head_ge {xs : List Int} {h x : Int}
    (hs : xs.Pairwise (fun a b => b < a)) (hh : xs.head? = some h) (hx : x ∈ xs) :
    x ≤ h := by
  cases xs with
  | nil => cases hx
  | cons a t =>
    have ha : a = h := by simpa using hh
    subst ha
    rcases List.mem_cons.mp hx with h2 | h2
    · exact le_of_eq h2
    · exact le_of_lt ((List.pairwise_cons.mp hs).1 x h2)

theorem sorted_le_last {xs : List Int} {l x : Int}
    (hs : xs.Pairwise (fun a b => a < b)) (hl : xs.getLast? = some l) (hx : x ∈ xs) :
    x ≤ l := by
  have hs' : xs.reverse.Pairwise (fun a b => b < a) := List.pairwise_reverse.mpr hs
  have hh : xs.reverse.head? = some l := by rw [List.head?_reverse]; exact hl
  exact sortedDesc_head_ge hs' hh (List.mem_reverse.mpr hx)

/-! ## Insertion lemmas -/

theorem sideKeys_cons (k : Int) (lvl : PriceLevel) (rest : SideMap) :
    sideKeys ((k, lvl) :: rest) = k :: sideKeys rest := rfl

theorem insertOrder_keys_mem (s : SideMap) (p : Int) (o : Order) :
    ∀ x ∈ sideKeys (insertOrder s p o), x = p ∨ x ∈ sideKeys s := by
  induction s with
  | nil =>
    intro x hx
    rw [insertOrder, sideKeys_cons] at hx
    rcases List.mem_cons.mp hx with h | h
    · exact Or.inl h
    · cases h
  | cons e rest ih =>
    obtain ⟨k, lvl⟩ := e
    intro x hx
    rw [sideKeys_cons]
    by_cases h1 : p < k
    · rw [insertOrder, if_pos h1, sideKeys_cons, sideKeys_cons] at hx
      rcases List.mem_cons.mp hx with h | h
      · exact Or.inl h
      · exact Or.inr h
    · by_cases h2 : p = k
      · rw [insertOrder, if_neg h1, if_pos h2, sideKeys_cons] at hx
        exact Or.inr hx
      · rw [insertOrder, if_neg h1, if_neg h2, sideKeys_cons] at hx
        rcases List.mem_cons.mp hx with h | h
        · exact Or.inr (h ▸ List.mem_cons_self _ _)
        · rcases ih x h with h3 | h3
          · exact Or.inl h3
          · exact Or.inr (List.mem_cons_of_mem _ h3)

theorem insertOrder_sorted {s : SideMap} (p : Int) (o : Order) (hs : SortedSide s) :
    SortedSide (insertOrder s p o) := by
  induction s with
  | nil => simp [insertOrder, SortedSide, sideKeys]
  | cons e rest ih =>
    obtain ⟨k, lvl⟩ := e
    have hk : sideKeys ((k, lvl) :: rest) = k :: sideKeys rest := rfl
    rw [SortedSide, hk] at hs
    have hs1 := List.pairwise_cons.mp hs
    by_cases h1 : p < k
    · rw [SortedSide, insertOrder, if_pos h1]
      have hk2 : sideKeys ((p, [o]) :: (k, lvl) :: rest) = p :: k :: sideKeys rest := rfl
      rw [hk2]
      refine List.pairwise_cons.mpr ⟨?_, hs⟩
      intro b hb
      rcases List.mem_cons.mp hb with h | h
      · exact h ▸ h1
      · exact lt_trans h1 (hs1.1 b h)
    · by_cases h2 : p = k
      · rw [SortedSide, insertOrder, if_neg h1, if_pos h2]
        exact hs
      · rw [SortedSide, insertOrder, if_neg h1, if_neg h2]
        have hk3 : sideKeys ((k, lvl) :: insertOrder rest p o) =
            k :: sideKeys (insertOrder rest p o) := rfl
        rw [hk3]
        refine List.pairwise_cons.mpr ⟨?_, ih hs1.2⟩
        intro b hb
        rcases insertOrder_keys_mem rest p o b hb with h | h
        · subst h
          omega
        · exact hs1.1 b h

theorem getLevel_eq_nil_of_forall_ne {s : SideMap} {p : Int}
    (h : ∀ k ∈ sideKeys s, p ≠ k) : getLevel s p = [] := by
  induction s with
  | nil => rfl
  | cons e rest ih =>
    obtain ⟨k, lvl⟩ := e
    rw [getLevel, if_neg (h k (by rw [sideKeys_cons]; exact List.mem_cons_self _ _))]
    exact ih (fun k' hk' => h k' (by rw [sideKeys_cons]; exact List.mem_cons_of_mem _ hk'))

theorem insertOrder_getLevel_self {s : SideMap} (p : Int) (o : Order) (hs : SortedSide s) :
    getLevel (insertOrder s p o) p = getLevel s p ++ [o] := by
  induction s with
  | nil => simp [insertOrder, getLevel]
  | cons e rest ih =>
    obtain ⟨k, lvl⟩ := e
    rw [SortedSide, sideKeys_cons] at hs
    have hs1 := List.pairwise_cons.mp hs
    by_cases h1 : p < k
    · rw [insertOrder, if_pos h1, getLevel, if_pos rfl]
      have hnil : getLevel ((k, lvl) :: rest) p = [] := by
        refine getLevel_eq_nil_of_forall_ne ?_
        intro k' hk'
        rw [sideKeys_cons] at hk'
        rcases List.mem_cons.mp hk' with h | h
        · omega
        · have := hs1.1 k' h
          omega
      rw [hnil]
      rfl
    · by_cases h2 : p = k
      · rw [insertOrder, if_neg h1, if_pos h2, getLevel, if_pos h2, getLevel, if_pos h2]
      · rw [insertOrder, if_neg h1, if_neg h2, getLevel, if_neg h2, getLevel, if_neg h2]
        exact ih hs1.2

theorem insertOrder_getLevel_other {s : SideMap} (p : Int) (o : Order) {x : Int}
    (hx : x ≠ p) : getLevel (insertOrder s p o) x = getLevel s x := by
  induction s with
  | nil => simp [insertOrder, getLevel, if_neg hx]
  | cons e rest ih =>
    obtain ⟨k, lvl⟩ := e
    by_cases h1 : p < k
    · rw [insertOrder, if_pos h1, getLevel, if_neg hx]
    · by_cases h2 : p = k
      · subst h2
        rw [insertOrder, if_neg h1, if_pos rfl, getLevel, if_neg hx, getLevel, if_neg hx]
      · rw [insertOrder, if_neg h1, if_neg h2]
        by_cases h3 : x = k
        · rw [getLevel, if_pos h3, getLevel, if_pos h3]
        · rw [getLevel, if_neg h3, getLevel, if_neg h3]
          exact ih

theorem insertOrder_flatten_mem (s : SideMap) (p : Int) (o : Order) :
    ∀ x ∈ flattenSide s, x ∈ flattenSide (insertOrder s p o) := by
  induction s with
  | nil => simp [flattenSide]
  | cons e rest ih =>
    obtain ⟨k, lvl⟩ := e
    intro x hx
    rw [flattenSide_cons] at hx
    by_cases h1 : p < k
    · rw [insertOrder, if_pos h1, flattenSide_cons, flattenSide_cons]
      exact List.mem_append_right _ hx
    · by_cases h2 : p = k
      · rw [insertOrder, if_neg h1, if_pos h2, flattenSide_cons]
        rcases List.mem_append.mp hx with h | h
        · exact List.mem_append_left _ (List.mem_append_left _ h)
        · exact List.mem_append_right _ h
      · rw [insertOrder, if_neg h1, if_neg h2, flattenSide_cons]
        rcases List.mem_append.mp hx with h | h
        · exact List.mem_append_left _ h
        · exact List.mem_append_right _ (ih x h)

theorem insertOrder_mem (s : SideMap) (p : Int) (o : Order) :
    ∀ e ∈ s, e ∈ insertOrder s p o ∨ (e.1 = p ∧ (e.1, e.2 ++ [o]) ∈ insertOrder s p o) := by
  induction s with
  | nil => simp
  | cons e0 rest ih =>
    obtain ⟨k, lvl⟩ := e0
    intro e he
    by_cases h1 : p < k
    · rw [insertOrder, if_pos h1]
      exact Or.inl (List.mem_cons_of_mem _ he)
    · by_cases h2 : p = k
      · rw [insertOrder, if_neg h1, if_pos h2]
        rcases List.mem_cons.mp he with h | h
        · subst h
          exact Or.inr ⟨h2.symm, List.mem_cons_self _ _⟩
        · exact Or.inl (List.mem_cons_of_mem _ h)
      · rw [insertOrder, if_neg h1, if_neg h2]
        rcases List.mem_cons.mp he with h | h
        · subst h
          exact Or.inl (List.mem_cons_self _ _)
        · rcases ih e h with h3 | ⟨hp, h3⟩
          · exact Or.inl (List.mem_cons_of_mem _ h3)
          · exact Or.inr ⟨hp, List.mem_cons_of_mem _ h3⟩

/-! ## `add_order` path helpers -/

theorem ensure_id (o : Order) : (ensure_remaining_quantity o).id = o.id := rfl

theorem ensure_side (o : Order) : (ensure_remaining_quantity o).side = o.side := rfl

theorem ensure_symbol (o : Order) : (ensure_remaining_quantity o).symbol = o.symbol := rfl

theorem ensure_price (o : Order) : (ensure_remaining_quantity o).price = o.price := rfl

theorem ensure_quantity (o : Order) : (ensure_remaining_quantity o).quantity = o.quantity := rfl

theorem ensure_status (o : Order) : (ensure_remaining_quantity o).status = o.status := rfl

theorem ensure_timestamp (o : Order) :
    (ensure_remaining_quantity o).timestamp = o.timestamp := rfl

theorem ensure_rem_pos (o : Order) (hq : o.quantity ≠ 0) :
    0 < (ensure_remaining_quantity o).remaining_quantity := by
  unfold ensure_remaining_quantity
  dsimp only
  split
  · omega
  · split <;> omega

theorem ensure_rem_le (o : Order) :
    (ensure_remaining_quantity o).remaining_quantity ≤ o.quantity := by
  unfold ensure_remaining_quantity
  dsimp only
  split
  · omega
  · split <;> omega

/-- The incoming order as the matching loops see it: remaining quantity
normalised, `New` promoted to `Accepted`. -/
def normalizeOrder (o : Order) : Order :=
  if (ensure_remaining_quantity o).status = OrderStatus.New
  then { ensure_remaining_quantity o with status := OrderStatus.Accepted }
  else ensure_remaining_quantity o

theorem normalizeOrder_id (o : Order) : (normalizeOrder o).id = o.id := by
  unfold normalizeOrder; split <;> rfl

theorem normalizeOrder_side (o : Order) : (normalizeOrder o).side = o.side := by
  unfold normalizeOrder; split <;> rfl

theorem normalizeOrder_symbol (o : Order) : (normalizeOrder o).symbol = o.symbol := by
  unfold normalizeOrder; split <;> rfl

theorem normalizeOrder_price (o : Order) : (normalizeOrder o).price = o.price := by
  unfold normalizeOrder; split <;> rfl

theorem normalizeOrder_quantity (o : Order) : (normalizeOrder o).quantity = o.quantity := by
  unfold normalizeOrder; split <;> rfl

theorem normalizeOrder_timestamp (o : Order) :
    (normalizeOrder o).timestamp = o.timestamp := by
  unfold normalizeOrder; split <;> rfl

theorem normalizeOrder_rem (o : Order) :
    (normalizeOrder o).remaining_quantity = (ensure_remaining_quantity o).remaining_quantity := by
  unfold normalizeOrder; split <;> rfl

/-- The valid-order continuation of `add_order` (everything after the two
validation checks), factored out of the definition for reasoning; it is
definitionally what `add_order` computes on the normalised order. -/
def addValid (b : OrderBook) (now fresh : Nat) (o1 : Order) : AddResult :=
  match o1.side with
  | OrderSide.Buy =>
    let r := matchLevels b.symbol o1.id now (fun p => decide (p ≤ o1.price))
      o1.remaining_quantity b.asks fresh
    if r.rem = 0 then ⟨OrderStatus.Filled, r.trades, { b with asks := r.levels }⟩
    else
      let st := if r.rem < o1.quantity then OrderStatus.PartiallyFilled else OrderStatus.Accepted
      let o2 := { o1 with remaining_quantity := r.rem, status := st }
      ⟨st, r.trades, { b with asks := r.levels, bids := insertOrder b.bids o2.price o2 }⟩
  | OrderSide.Sell =>
    let r := matchLevels b.symbol o1.id now (fun p => decide (o1.price ≤ p))
      o1.remaining_quantity b.bids.reverse fresh
    if r.rem = 0 then ⟨OrderStatus.Filled, r.trades, { b with bids := r.levels.reverse }⟩
    else
      let st := if r.rem < o1.quantity then OrderStatus.PartiallyFilled else OrderStatus.Accepted
      let o2 := { o1 with remaining_quantity := r.rem, status := st }
      ⟨st, r.trades, { b with bids := r.levels.reverse, asks := insertOrder b.asks o2.price o2 }⟩

theorem add_order_rejected_eq (b : OrderBook) (now fresh : Nat) (o : Order)
    (h : o.symbol ≠ b.symbol ∨ o.price ≤ 0 ∨ o.quantity = 0) :
    b.add_order now fresh o = ⟨OrderStatus.Rejected, [], b⟩ := by
  simp only [OrderBook.add_order]
  by_cases h1 : (ensure_remaining_quantity o).symbol ≠ b.symbol
  · rw [if_pos h1]
  · rw [if_neg h1]
    have h2 : (ensure_remaining_quantity o).price ≤ 0 ∨
        (ensure_remaining_quantity o).quantity = 0 := by
      rw [ensure_price, ensure_quantity]
      rw [ensure_symbol] at h1
      tauto
    rw [if_pos h2]

theorem add_order_valid_eq (b : OrderBook) (now fresh : Nat) (o : Order)
    (hsym : o.symbol = b.symbol) (hp : 0 < o.price) (hq : o.quantity ≠ 0) :
    b.add_order now fresh o = addValid b now fresh (normalizeOrder o) := by
  simp only [OrderBook.add_order]
  rw [if_neg (by rw [ensure_symbol]; simp [hsym]),
    if_neg (by rw [ensure_price, ensure_quantity]; push_neg; exact ⟨hp, hq⟩)]
  rfl

theorem addValid_buy (b : OrderBook) (now fresh : Nat) (o1 : Order)
    (hside : o1.side = OrderSide.Buy) :
    addValid b now fresh o1 =
      if (matchLevels b.symbol o1.id now (fun p => decide (p ≤ o1.price))
          o1.remaining_quantity b.asks fresh).rem = 0
      then ⟨OrderStatus.Filled,
        (matchLevels b.symbol o1.id now (fun p => decide (p ≤ o1.price))
          o1.remaining_quantity b.asks fresh).trades,
        { b with asks := (matchLevels b.symbol o1.id now (fun p => decide (p ≤ o1.price))
            o1.remaining_quantity b.asks fresh).levels }⟩
      else ⟨if (matchLevels b.symbol o1.id now (fun p => decide (p ≤ o1.price))
            o1.remaining_quantity b.asks fresh).rem < o1.quantity
          then OrderStatus.PartiallyFilled else OrderStatus.Accepted,
        (matchLevels b.symbol o1.id now (fun p => decide (p ≤ o1.price))
          o1.remaining_quantity b.asks fresh).trades,
        { b with
            asks := (matchLevels b.symbol o1.id now (fun p => decide (p ≤ o1.price))
              o1.remaining_quantity b.asks fresh).levels,
            bids := insertOrder b.bids o1.price
              { o1 with
                  remaining_quantity := (matchLevels b.symbol o1.id now
                    (fun p => decide (p ≤ o1.price)) o1.remaining_quantity b.asks fresh).rem,
                  status := if (matchLevels b.symbol o1.id now (fun p => decide (p ≤ o1.price))
                      o1.remaining_quantity b.asks fresh).rem < o1.quantity
                    then OrderStatus.PartiallyFilled else OrderStatus.Accepted } }⟩ := by
  simp only [addValid, hside]

theorem addValid_sell (b : OrderBook) (now fresh : Nat) (o1 : Order)
    (hside : o1.side = OrderSide.Sell) :
    addValid b now fresh o1 =
      if (matchLevels b.symbol o1.id now (fun p => decide (o1.price ≤ p))
          o1.remaining_quantity b.bids.reverse fresh).rem = 0
      then ⟨OrderStatus.Filled,
        (matchLevels b.symbol o1.id now (fun p => decide (o1.price ≤ p))
          o1.remaining_quantity b.bids.reverse fresh).trades,
        { b with bids := (matchLevels b.symbol o1.id now (fun p => decide (o1.price ≤ p))
            o1.remaining_quantity b.bids.reverse fresh).levels.reverse }⟩
      else ⟨if (matchLevels b.symbol o1.id now (fun p => decide (o1.price ≤ p))
            o1.remaining_quantity b.bids.reverse fresh).rem < o1.quantity
          then OrderStatus.PartiallyFilled else OrderStatus.Accepted,
        (matchLevels b.symbol o1.id now (fun p => decide (o1.price ≤ p))
          o1.remaining_quantity b.bids.reverse fresh).trades,
        { b with
            bids := (matchLevels b.symbol o1.id now (fun p => decide (o1.price ≤ p))
              o1.remaining_quantity b.bids.reverse fresh).levels.reverse,
            asks := insertOrder b.asks o1.price
              { o1 with
                  remaining_quantity := (matchLevels b.symbol o1.id now
                    (fun p => decide (o1.price ≤ p)) o1.remaining_quantity
                    b.bids.reverse fresh).rem,
                  status := if (matchLevels b.symbol o1.id now (fun p => decide (o1.price ≤ p))
                      o1.remaining_quantity b.bids.reverse fresh).rem < o1.quantity
                    then OrderStatus.PartiallyFilled else OrderStatus.Accepted } }⟩ := by
  simp only [addValid, hside]

theorem addValid_status (b : OrderBook) (now fresh : Nat) (o1 : Order) :
    (addValid b now fresh o1).status = OrderStatus.Filled ∨
    (addValid b now fresh o1).status = OrderStatus.PartiallyFilled ∨
    (addValid b now fresh o1).status = OrderStatus.Accepted := by
  cases hside : o1.side
  · rw [addValid_buy b now fresh o1 hside]
    split
    · exact Or.inl rfl
    · dsimp only
      split
      · exact Or.inr (Or.inl rfl)
      · exact Or.inr (Or.inr rfl)
  · rw [addValid_sell b now fresh o1 hside]
    split
    · exact Or.inl rfl
    · dsimp only
      split
      · exact Or.inr (Or.inl rfl)
      · exact Or.inr (Or.inr rfl)

/-! ## Sample data for concrete evaluations -/

/-- A fresh valid buy order on the `TEST` book. -/
def sampleBuy : Order :=
  { id := 1, side := OrderSide.Buy, symbol := "TEST", price := 100, quantity := 10,
    timestamp := 0, status := OrderStatus.New, remaining_quantity := 10 }

/-- An order that fails validation (zero price). -/
def sampleBadPrice : Order :=
  { id := 2, side := OrderSide.Buy, symbol := "TEST", price := 0, quantity := 10,
    timestamp := 1, status := OrderStatus.New, remaining_quantity := 10 }

/-- The subscriber state after the first command of the C1 scenario. -/
def c1Step1 : ProcessResult :=
  processOrder (OrderBook.new "TEST") 0 0 sampleBuy

/-- The subscriber state after the second command of the C1 scenario: the
order is rejected, so the book state is identical to the first step's; only
the wall clock differs. -/
def c1Step2 : ProcessResult :=
  processOrder c1Step1.book 1 100 sampleBadPrice

/-! ## Claim theorems -/

/-- C1 (code bug): change detection in `subscriber.rs` compares the freshly
computed `BboUpdate`/`OrderBookSnapshot` with the cached one using derived
`PartialEq`, which includes the `timestamp` field that `BboUpdate::new` and
`OrderBookSnapshot::new` stamp with `Utc::now()`.  Hence two consecutive
commands that leave the book in an identical state (here: a valid buy, then a
rejected order) both emit a BBO and a snapshot whenever the two clock
readings differ, where the claim requires exactly one emission.  This theorem
exhibits the failure: after the second command the book (bids and asks) is
unchanged from the first, yet both steps emit both updates. -/
theorem C1_second_emission_despite_identical_book :
    c1Step2.book.bids = c1Step1.book.bids ∧
    c1Step2.book.asks = c1Step1.book.asks ∧
    c1Step2.status = OrderStatus.Rejected ∧
    c1Step1.bboEmitted = true ∧ c1Step1.snapEmitted = true ∧
    c1Step2.bboEmitted = true ∧ c1Step2.snapEmitted = true := by
  decide

/-- C9 (spec-modelled): `clear_book` — absent from the library source, called
by the subscriber, modelled from the spec — empties both sides and resets the
cached BBO and snapshot projections. -/
theorem C9_clear_book_resets (b : OrderBook) :
    (b.clear_book).bids = [] ∧ (b.clear_book).asks = [] ∧
    (b.clear_book).last_bbo = none ∧ (b.clear_book).last_snapshot = none :=
  ⟨rfl, rfl, rfl, rfl⟩

/-- C3: `add_order` returns `Rejected` exactly on the three validation
failures — symbol mismatch, non-positive price, zero quantity — and on any
such failure it returns no trades and leaves the entire book (both sides and
the cached BBO/snapshot) unchanged. -/
theorem C3_rejected_exactly_on_validation_failure (b : OrderBook) (now fresh : Nat)
    (o : Order) :
    ((b.add_order now fresh o).status = OrderStatus.Rejected ↔
      o.symbol ≠ b.symbol ∨ o.price ≤ 0 ∨ o.quantity = 0) ∧
    ((b.add_order now fresh o).status = OrderStatus.Rejected →
      (b.add_order now fresh o).trades = [] ∧ (b.add_order now fresh o).book = b) := by
  by_cases hrej : o.symbol ≠ b.symbol ∨ o.price ≤ 0 ∨ o.quantity = 0
  · rw [add_order_rejected_eq b now fresh o hrej]
    exact ⟨⟨fun _ => hrej, fun _ => rfl⟩, fun _ => ⟨rfl, rfl⟩⟩
  · push_neg at hrej
    obtain ⟨hsym, hp, hq⟩ := hrej
    rw [add_order_valid_eq b now fresh o hsym hp hq]
    constructor
    · constructor
      · intro habs
        rcases addValid_status b now fresh (normalizeOrder o) with h | h | h <;>
          rw [habs] at h <;> cases h
      · intro habs
        rcases habs with h | h | h
        · exact absurd hsym h
        · omega
        · exact absurd h hq
    · intro habs
      rcases addValid_status b now fresh (normalizeOrder o) with h | h | h <;>
        rw [habs] at h <;> cases h

/-! ## C8: depth snapshot -/

/-- Written from the spec's words, for refinement comparison with
`OrderBook.get_snapshot`: the top `n` NON-EMPTY levels per side (filter
first, then truncate), bids highest-first, asks lowest-first, each reported
with its aggregated remaining quantity. -/
def specSnapshot (b : OrderBook) (now : Nat) (n : Nat) : OrderBookSnapshot :=
  { symbol := b.symbol
    bids := (((b.bids.filter (fun e => decide (0 < levelQty e.2))).reverse.take n).map
      (fun e => PriceLevelInfo.mk e.1 (levelQty e.2)))
    asks := (((b.asks.filter (fun e => decide (0 < levelQty e.2))).take n).map
      (fun e => PriceLevelInfo.mk e.1 (levelQty e.2)))
    timestamp := now }

theorem side_all_pos_filter_eq {s : SideMap} (h : ∀ e ∈ s, 0 < levelQty e.2) :
    s.filter (fun e => decide (0 < levelQty e.2)) = s :=
  List.filter_eq_self.mpr (fun e he => by simpa using h e he)

theorem snapshot_side_filter_eq {s : SideMap} (n : Nat) (h : ∀ e ∈ s, 0 < levelQty e.2) :
    ((s.take n).map (fun e => PriceLevelInfo.mk e.1 (levelQty e.2))).filter
        (fun l => decide (0 < l.quantity)) =
      (s.take n).map (fun e => PriceLevelInfo.mk e.1 (levelQty e.2)) := by
  refine List.filter_eq_self.mpr ?_
  intro l hl
  obtain ⟨e, he, hfe⟩ := List.mem_map.mp hl
  have he2 : e ∈ s := List.mem_of_mem_take he
  subst hfe
  simpa using h e he2

/-- C8: for every book state whose levels all carry positive aggregate
quantity (spec invariant I3) and whose sides are sorted, `get_snapshot`
returns exactly the spec's top-N non-empty levels per side: bids
highest-first, asks lowest-first, each with the sum of the remaining
quantities of the orders at that level. -/
theorem C8_snapshot_top_levels (b : OrderBook) (now n : Nat)
    (hb : ∀ e ∈ b.bids, 0 < levelQty e.2) (ha : ∀ e ∈ b.asks, 0 < levelQty e.2)
    (hsb : SortedSide b.bids) (hsa : SortedSide b.asks) :
    b.get_snapshot now n = specSnapshot b now n ∧
    (b.get_snapshot now n).bids.Pairwise (fun x y => y.price < x.price) ∧
    (b.get_snapshot now n).asks.Pairwise (fun x y => x.price < y.price) := by
  have hb' : ∀ e ∈ b.bids.reverse, 0 < levelQty e.2 := fun e he =>
    hb e (List.mem_reverse.mp he)
  have heqb : (b.get_snapshot now n).bids =
      (b.bids.reverse.take n).map (fun e => PriceLevelInfo.mk e.1 (levelQty e.2)) := by
    unfold OrderBook.get_snapshot
    exact snapshot_side_filter_eq n hb'
  have heqa : (b.get_snapshot now n).asks =
      (b.asks.take n).map (fun e => PriceLevelInfo.mk e.1 (levelQty e.2)) := by
    unfold OrderBook.get_snapshot
    exact snapshot_side_filter_eq n ha
  have hpairb : (b.get_snapshot now n).bids.Pairwise (fun x y => y.price < x.price) := by
    rw [heqb]
    have h1 : b.bids.Pairwise (fun e e' : Int × PriceLevel => e.1 < e'.1) := by
      rw [SortedSide, sideKeys, List.pairwise_map] at hsb
      exact hsb
    have h2 : b.bids.reverse.Pairwise (fun e e' : Int × PriceLevel => e'.1 < e.1) :=
      List.pairwise_reverse.mpr h1
    have h3 := h2.sublist (List.take_sublist n b.bids.reverse)
    exact List.Pairwise.map _ (fun a b h => h) h3
  have hpaira : (b.get_snapshot now n).asks.Pairwise (fun x y => x.price < y.price) := by
    rw [heqa]
    have h1 : b.asks.Pairwise (fun e e' : Int × PriceLevel => e.1 < e'.1) := by
      rw [SortedSide, sideKeys, List.pairwise_map] at hsa
      exact hsa
    have h3 := h1.sublist (List.take_sublist n b.asks)
    exact List.Pairwise.map _ (fun a b h => h) h3
  refine ⟨?_, hpairb, hpaira⟩
  unfold specSnapshot
  rw [side_all_pos_filter_eq hb, side_all_pos_filter_eq ha]
  have hsnap : b.get_snapshot now n =
      { symbol := b.symbol
        bids := (b.get_snapshot now n).bids
        asks := (b.get_snapshot now n).asks
        timestamp := now } := rfl
  rw [hsnap, heqb, heqa]

/-- A resting order in reachable shape for concrete witnesses. -/
def mkResting (i : Nat) (sd : OrderSide) (p : Int) (q : Nat) : Order :=
  { id := i, side := sd, symbol := "TEST", price := p, quantity := q,
    timestamp := 0, status := OrderStatus.Accepted, remaining_quantity := q }

/-- A small well-formed book (sorted, price-coherent, positive remainders,
non-crossed) used by the witnesses. -/
def sampleBook : OrderBook :=
  { symbol := "TEST"
    bids := [(995, [mkResting 11 OrderSide.Buy 995 20]),
             (997, [mkResting 12 OrderSide.Buy 997 5, mkResting 13 OrderSide.Buy 997 7]),
             (998, [mkResting 14 OrderSide.Buy 998 8])]
    asks := [(1000, [mkResting 21 OrderSide.Sell 1000 9, mkResting 22 OrderSide.Sell 1000 11]),
             (1005, [mkResting 23 OrderSide.Sell 1005 30])]
    last_bbo := none
    last_snapshot := none }

theorem C8_snapshot_top_levels_witness :
    (∀ e ∈ sampleBook.bids, 0 < levelQty e.2) ∧ (∀ e ∈ sampleBook.asks, 0 < levelQty e.2) ∧
    SortedSide sampleBook.bids ∧ SortedSide sampleBook.asks ∧
    (sampleBook.get_snapshot 7 2 = specSnapshot sampleBook 7 2 ∧
     (sampleBook.get_snapshot 7 2).bids.Pairwise (fun x y => y.price < x.price) ∧
     (sampleBook.get_snapshot 7 2).asks.Pairwise (fun x y => x.price < y.price)) :=
  ⟨by decide, by decide, by decide, by decide,
   C8_snapshot_top_levels sampleBook 7 2 (by decide) (by decide) (by decide) (by decide)⟩

/-! ## C6: taker status and resting rule -/

/-- The side of the book an incoming order of the given side rests on. -/
def restSideOf (b : OrderBook) : OrderSide → SideMap
  | OrderSide.Buy => b.bids
  | OrderSide.Sell => b.asks

/-- The level list, in iteration order, that an incoming order of the given
side is matched against: ascending asks for a buy, descending (reversed)
bids for a sell. -/
def matchInput (b : OrderBook) : OrderSide → SideMap
  | OrderSide.Buy => b.asks
  | OrderSide.Sell => b.bids.reverse

theorem matchMakers_sum (sym : String) (tid now : Nat) (ms : List Order)
    (rem fresh : Nat) :
    (matchMakers sym tid now rem ms fresh).rem +
      ((matchMakers sym tid now rem ms fresh).trades.map (fun t => t.quantity)).sum = rem :=
  (matchMakers_chain sym tid now ms rem fresh).sum_quantity

theorem matchLevels_sum (sym : String) (tid now : Nat) (crosses : Int → Bool)
    (levels : SideMap) (rem fresh : Nat) :
    (matchLevels sym tid now crosses rem levels fresh).rem +
      ((matchLevels sym tid now crosses rem levels fresh).trades.map
        (fun t => t.quantity)).sum = rem := by
  induction levels generalizing rem fresh with
  | nil => simp [matchLevels_nil]
  | cons e0 rest ih =>
    obtain ⟨p, lvl⟩ := e0
    by_cases hstop : rem = 0 ∨ crosses p = false
    · rw [matchLevels_stop sym tid now crosses rem fresh p lvl rest hstop]
      simp
    · rw [matchLevels_go sym tid now crosses rem fresh p lvl rest hstop]
      dsimp only
      rw [List.map_append, List.sum_append]
      have h1 := matchMakers_sum sym tid now lvl rem fresh
      have h2 := ih (matchMakers sym tid now rem lvl fresh).rem
        (matchMakers sym tid now rem lvl fresh).fresh
      omega

/-- C6: for a valid incoming order with original quantity `q`, writing `R`
for the post-matching remaining quantity (pinned down by quantity
conservation against the returned trades), `add_order` returns `Filled` when
`R = 0` and the order does not rest; otherwise it returns `PartiallyFilled`
iff `R < q` (else `Accepted`) and appends the order, carrying that status and
remainder, at the back of its side's level at its limit price, creating the
level if absent and leaving every other level of that side untouched. -/
theorem C6_taker_status_and_resting (b : OrderBook) (now fresh : Nat) (o : Order)
    (hsym : o.symbol = b.symbol) (hp : 0 < o.price) (hq : o.quantity ≠ 0)
    (hsorted : SortedSide (restSideOf b o.side)) :
    ∃ rem, rem + (((b.add_order now fresh o).trades).map (fun t => t.quantity)).sum =
        (ensure_remaining_quantity o).remaining_quantity ∧
      (rem = 0 → (b.add_order now fresh o).status = OrderStatus.Filled ∧
        restSideOf (b.add_order now fresh o).book o.side = restSideOf b o.side) ∧
      (rem ≠ 0 → (b.add_order now fresh o).status =
          (if rem < o.quantity then OrderStatus.PartiallyFilled else OrderStatus.Accepted) ∧
        getLevel (restSideOf (b.add_order now fresh o).book o.side) o.price =
          getLevel (restSideOf b o.side) o.price ++
            [{ id := o.id, side := o.side, symbol := o.symbol, price := o.price,
               quantity := o.quantity, timestamp := o.timestamp,
               status := if rem < o.quantity then OrderStatus.PartiallyFilled
                 else OrderStatus.Accepted,
               remaining_quantity := rem }] ∧
        (∀ p, p ≠ o.price →
          getLevel (restSideOf (b.add_order now fresh o).book o.side) p =
            getLevel (restSideOf b o.side) p)) := by
  rw [add_order_valid_eq b now fresh o hsym hp hq]
  cases hside : o.side with
  | Buy =>
    have hside' : (normalizeOrder o).side = OrderSide.Buy := by
      rw [normalizeOrder_side]; exact hside
    rw [addValid_buy b now fresh (normalizeOrder o) hside']
    have hsum := matchLevels_sum b.symbol (normalizeOrder o).id now
      (fun p => decide (p ≤ (normalizeOrder o).price)) b.asks
      (normalizeOrder o).remaining_quantity fresh
    generalize hR : matchLevels b.symbol (normalizeOrder o).id now
      (fun p => decide (p ≤ (normalizeOrder o).price))
      (normalizeOrder o).remaining_quantity b.asks fresh = R at hsum ⊢
    refine ⟨R.rem, ?_, ?_, ?_⟩
    · by_cases hr : R.rem = 0 <;> [rw [if_pos hr]; rw [if_neg hr]] <;> dsimp only <;>
        rw [← normalizeOrder_rem] <;> exact hsum
    · intro hr
      rw [if_pos hr]
      exact ⟨rfl, rfl⟩
    · intro hr
      rw [if_neg hr]
      dsimp only
      simp only [normalizeOrder_id, normalizeOrder_side, normalizeOrder_symbol,
        normalizeOrder_price, normalizeOrder_quantity, normalizeOrder_timestamp, hside]
      dsimp only [restSideOf]
      refine ⟨trivial, ?_, ?_⟩
      · exact insertOrder_getLevel_self o.price _ (by rwa [hside] at hsorted)
      · intro p hpne
        exact insertOrder_getLevel_other o.price _ hpne
  | Sell =>
    have hside' : (normalizeOrder o).side = OrderSide.Sell := by
      rw [normalizeOrder_side]; exact hside
    rw [addValid_sell b now fresh (normalizeOrder o) hside']
    have hsum := matchLevels_sum b.symbol (normalizeOrder o).id now
      (fun p => decide ((normalizeOrder o).price ≤ p)) b.bids.reverse
      (normalizeOrder o).remaining_quantity fresh
    generalize hR : matchLevels b.symbol (normalizeOrder o).id now
      (fun p => decide ((normalizeOrder o).price ≤ p))
      (normalizeOrder o).remaining_quantity b.bids.reverse fresh = R at hsum ⊢
    refine ⟨R.rem, ?_, ?_, ?_⟩
    · by_cases hr : R.rem = 0 <;> [rw [if_pos hr]; rw [if_neg hr]] <;> dsimp only <;>
        rw [← normalizeOrder_rem] <;> exact hsum
    · intro hr
      rw [if_pos hr]
      exact ⟨rfl, rfl⟩
    · intro hr
      rw [if_neg hr]
      dsimp only
      simp only [normalizeOrder_id, normalizeOrder_side, normalizeOrder_symbol,
        normalizeOrder_price, normalizeOrder_quantity, normalizeOrder_timestamp, hside]
      dsimp only [restSideOf]
      refine ⟨trivial, ?_, ?_⟩
      · exact insertOrder_getLevel_self o.price _ (by rwa [hside] at hsorted)
      · intro p hpne
        exact insertOrder_getLevel_other o.price _ hpne

theorem C6_taker_status_and_resting_witness :
    sampleBuy.symbol = sampleBook.symbol ∧ 0 < sampleBuy.price ∧ sampleBuy.quantity ≠ 0 ∧
    SortedSide (restSideOf sampleBook sampleBuy.side) ∧
    (∃ rem, rem + (((sampleBook.add_order 5 40 sampleBuy).trades).map
          (fun t => t.quantity)).sum =
        (ensure_remaining_quantity sampleBuy).remaining_quantity ∧
      (rem = 0 → (sampleBook.add_order 5 40 sampleBuy).status = OrderStatus.Filled ∧
        restSideOf (sampleBook.add_order 5 40 sampleBuy).book sampleBuy.side =
          restSideOf sampleBook sampleBuy.side) ∧
      (rem ≠ 0 → (sampleBook.add_order 5 40 sampleBuy).status =
          (if rem < sampleBuy.quantity then OrderStatus.PartiallyFilled
            else OrderStatus.Accepted) ∧
        getLevel (restSideOf (sampleBook.add_order 5 40 sampleBuy).book sampleBuy.side)
            sampleBuy.price =
          getLevel (restSideOf sampleBook sampleBuy.side) sampleBuy.price ++
            [{ id := sampleBuy.id, side := sampleBuy.side, symbol := sampleBuy.symbol,
               price := sampleBuy.price, quantity := sampleBuy.quantity,
               timestamp := sampleBuy.timestamp,
               status := if rem < sampleBuy.quantity then OrderStatus.PartiallyFilled
                 else OrderStatus.Accepted,
               remaining_quantity := rem }] ∧
        (∀ p, p ≠ sampleBuy.price →
          getLevel (restSideOf (sampleBook.add_order 5 40 sampleBuy).book sampleBuy.side) p =
            getLevel (restSideOf sampleBook sampleBuy.side) p))) :=
  ⟨by decide, by decide, by decide, by decide,
   C6_taker_status_and_resting sampleBook 5 40 sampleBuy
     (by decide) (by decide) (by decide) (by decide)⟩

/-- C4: quantity conservation.  For every valid incoming order, the trades
`add_order` produces form a `TradeChain` — the spec's per-trade relation:
each trade's quantity is `min(taker_remaining, maker_remaining)` at the
moment of the match, both taker and maker lose exactly that (positive)
quantity, the maker's status becomes `Filled` exactly when its remainder
reaches zero and `PartiallyFilled` otherwise, and every other resting order
of the matched side is untouched by that step.  The taker's final remainder
`remF` satisfies `remF + Σ trade.quantity = initial remaining`; the matched
side afterwards is the chain's final queue with `Filled` orders pruned, and
every resting order of the opposite side is still in the book. -/
theorem C4_quantity_conservation (b : OrderBook) (now fresh : Nat) (o : Order)
    (hsym : o.symbol = b.symbol) (hp : 0 < o.price) (hq : o.quantity ≠ 0)
    (H : ∀ x ∈ flattenSide (matchInput b o.side), x.status ≠ OrderStatus.Filled) :
    ∃ remF flat',
      TradeChain o.id (ensure_remaining_quantity o).remaining_quantity
        (flattenSide (matchInput b o.side)) (b.add_order now fresh o).trades remF flat' ∧
      remF + ((b.add_order now fresh o).trades.map (fun t => t.quantity)).sum =
        (ensure_remaining_quantity o).remaining_quantity ∧
      flattenSide (matchInput (b.add_order now fresh o).book o.side) =
        flat'.filter notFilled ∧
      (∀ x ∈ flattenSide (restSideOf b o.side),
        x ∈ flattenSide (restSideOf (b.add_order now fresh o).book o.side)) := by
  rw [add_order_valid_eq b now fresh o hsym hp hq]
  cases hside : o.side with
  | Buy =>
    have hside' : (normalizeOrder o).side = OrderSide.Buy := by
      rw [normalizeOrder_side]; exact hside
    rw [addValid_buy b now fresh (normalizeOrder o) hside']
    have H' : ∀ x ∈ flattenSide b.asks, x.status ≠ OrderStatus.Filled := by
      rwa [hside] at H
    obtain ⟨flat', chain, hfst⟩ := matchLevels_chain b.symbol (normalizeOrder o).id now
      (fun p => decide (p ≤ (normalizeOrder o).price)) b.asks
      (normalizeOrder o).remaining_quantity fresh H'
    have hsum := matchLevels_sum b.symbol (normalizeOrder o).id now
      (fun p => decide (p ≤ (normalizeOrder o).price)) b.asks
      (normalizeOrder o).remaining_quantity fresh
    generalize hR : matchLevels b.symbol (normalizeOrder o).id now
      (fun p => decide (p ≤ (normalizeOrder o).price))
      (normalizeOrder o).remaining_quantity b.asks fresh = R at chain hfst hsum ⊢
    rw [normalizeOrder_id, normalizeOrder_rem] at chain
    rw [normalizeOrder_rem] at hsum
    refine ⟨R.rem, flat', ?_, ?_, ?_, ?_⟩
    · by_cases hr : R.rem = 0 <;> [rw [if_pos hr]; rw [if_neg hr]] <;> dsimp only <;>
        exact chain
    · by_cases hr : R.rem = 0 <;> [rw [if_pos hr]; rw [if_neg hr]] <;> dsimp only <;>
        exact hsum
    · by_cases hr : R.rem = 0 <;> [rw [if_pos hr]; rw [if_neg hr]] <;> dsimp only <;>
        exact hfst
    · by_cases hr : R.rem = 0 <;> [rw [if_pos hr]; rw [if_neg hr]] <;> dsimp only
      · exact fun x hx => hx
      · exact insertOrder_flatten_mem b.bids (normalizeOrder o).price _
  | Sell =>
    have hside' : (normalizeOrder o).side = OrderSide.Sell := by
      rw [normalizeOrder_side]; exact hside
    rw [addValid_sell b now fresh (normalizeOrder o) hside']
    have H' : ∀ x ∈ flattenSide b.bids.reverse, x.status ≠ OrderStatus.Filled := by
      rwa [hside] at H
    obtain ⟨flat', chain, hfst⟩ := matchLevels_chain b.symbol (normalizeOrder o).id now
      (fun p => decide ((normalizeOrder o).price ≤ p)) b.bids.reverse
      (normalizeOrder o).remaining_quantity fresh H'
    have hsum := matchLevels_sum b.symbol (normalizeOrder o).id now
      (fun p => decide ((normalizeOrder o).price ≤ p)) b.bids.reverse
      (normalizeOrder o).remaining_quantity fresh
    generalize hR : matchLevels b.symbol (normalizeOrder o).id now
      (fun p => decide ((normalizeOrder o).price ≤ p))
      (normalizeOrder o).remaining_quantity b.bids.reverse fresh = R at chain hfst hsum ⊢
    rw [normalizeOrder_id, normalizeOrder_rem] at chain
    rw [normalizeOrder_rem] at hsum
    refine ⟨R.rem, flat', ?_, ?_, ?_, ?_⟩
    · by_cases hr : R.rem = 0 <;> [rw [if_pos hr]; rw [if_neg hr]] <;> dsimp only <;>
        exact chain
    · by_cases hr : R.rem = 0 <;> [rw [if_pos hr]; rw [if_neg hr]] <;> dsimp only <;>
        exact hsum
    · by_cases hr : R.rem = 0 <;> [rw [if_pos hr]; rw [if_neg hr]] <;> dsimp only <;>
        · show flattenSide (R.levels.reverse.reverse) = flat'.filter notFilled
          rw [List.reverse_reverse]
          exact hfst
    · by_cases hr : R.rem = 0 <;> [rw [if_pos hr]; rw [if_neg hr]] <;> dsimp only
      · exact fun x hx => hx
      · exact insertOrder_flatten_mem b.asks (normalizeOrder o).price _

/-- A buy order that crosses the sample book's best ask level. -/
def sampleBuyCross : Order :=
  { id := 3, side := OrderSide.Buy, symbol := "TEST", price := 1000, quantity := 15,
    timestamp := 2, status := OrderStatus.New, remaining_quantity := 15 }

theorem C4_quantity_conservation_witness :
    sampleBuyCross.symbol = sampleBook.symbol ∧ 0 < sampleBuyCross.price ∧
    sampleBuyCross.quantity ≠ 0 ∧
    (∀ x ∈ flattenSide (matchInput sampleBook sampleBuyCross.side),
      x.status ≠ OrderStatus.Filled) ∧
    (∃ remF flat',
      TradeChain sampleBuyCross.id
        (ensure_remaining_quantity sampleBuyCross).remaining_quantity
        (flattenSide (matchInput sampleBook sampleBuyCross.side))
        ((sampleBook.add_order 9 70 sampleBuyCross).trades) remF flat' ∧
      remF + ((sampleBook.add_order 9 70 sampleBuyCross).trades.map
          (fun t => t.quantity)).sum =
        (ensure_remaining_quantity sampleBuyCross).remaining_quantity ∧
      flattenSide (matchInput (sampleBook.add_order 9 70 sampleBuyCross).book
          sampleBuyCross.side) = flat'.filter notFilled ∧
      (∀ x ∈ flattenSide (restSideOf sampleBook sampleBuyCross.side),
        x ∈ flattenSide (restSideOf (sampleBook.add_order 9 70 sampleBuyCross).book
          sampleBuyCross.side))) :=
  ⟨by decide, by decide, by decide, by decide,
   C4_quantity_conservation sampleBook 9 70 sampleBuyCross
     (by decide) (by decide) (by decide) (by decide)⟩

/-! ## Consumption structure of the matched side -/

theorem mem_flattenSide_of_mem {levels : SideMap} {p : Int} {q : PriceLevel}
    (he : (p, q) ∈ levels) {x : Order} (hx : x ∈ q) : x ∈ flattenSide levels := by
  unfold flattenSide
  rw [List.mem_flatten]
  exact ⟨q, List.mem_map_of_mem Prod.snd he, hx⟩

theorem consumedFrom_ids {old new : List Order} (h : consumedFrom old new) :
    ∃ k, new.map (fun x => x.id) = (old.map (fun x => x.id)).drop k := by
  obtain ⟨k, h⟩ := h
  rcases h with h | ⟨m, m', hdec, hcore, _, _, _, hnew⟩
  · refine ⟨k, ?_⟩
    rw [h, List.map_drop]
  · refine ⟨k, ?_⟩
    rw [hnew, ← List.map_drop, hdec]
    simp only [List.map_cons, List.map_drop]
    rw [hcore.1]

theorem matchLevels_consumed (sym : String) (tid now : Nat) (crosses : Int → Bool)
    (levels : SideMap) (rem fresh : Nat)
    (Hv : ∀ x ∈ flattenSide levels, validResting x) :
    ∀ e ∈ (matchLevels sym tid now crosses rem levels fresh).levels,
      ∃ q, (e.1, q) ∈ levels ∧ consumedFrom q e.2 := by
  intro e he
  rcases matchLevels_mem sym tid now crosses levels rem fresh e he with h | ⟨q, rem0, f0, hq, heq⟩
  · exact ⟨e.2, h, 0, Or.inl (List.drop_zero _).symm⟩
  · have Hq : ∀ x ∈ q, validResting x := fun x hx => Hv x (mem_flattenSide_of_mem hq hx)
    have hc := matchMakers_consumed sym tid now q rem0 f0 Hq
    rw [← heq] at hc
    exact ⟨q, hq, hc⟩

/-- C10: frame condition of matching.  Every level of the matched side after
`add_order` descends from a level of the same price before the call by
head-first consumption (`consumedFrom`): a suffix of the original queue in
which at most the first survivor changed, and only in `remaining_quantity`
and `status` (its other six fields are equal, by `coreEq`); orders behind it
are identical.  On the resting side every level is either untouched or has
exactly the incoming order appended at its back. -/
theorem C10_frame_condition (b : OrderBook) (now fresh : Nat) (o : Order)
    (Hv : ∀ x ∈ flattenSide (matchInput b o.side), validResting x)
    (hsorted : SortedSide (restSideOf b o.side)) :
    (∀ e ∈ matchInput (b.add_order now fresh o).book o.side,
      ∃ q, (e.1, q) ∈ matchInput b o.side ∧ consumedFrom q e.2) ∧
    (∀ p, getLevel (restSideOf (b.add_order now fresh o).book o.side) p =
        getLevel (restSideOf b o.side) p ∨
      ∃ o2, o2.id = o.id ∧
        getLevel (restSideOf (b.add_order now fresh o).book o.side) p =
          getLevel (restSideOf b o.side) p ++ [o2]) := by
  by_cases hval : o.symbol = b.symbol ∧ 0 < o.price ∧ o.quantity ≠ 0
  · obtain ⟨hsym, hp, hq⟩ := hval
    rw [add_order_valid_eq b now fresh o hsym hp hq]
    cases hside : o.side with
    | Buy =>
      have hside' : (normalizeOrder o).side = OrderSide.Buy := by
        rw [normalizeOrder_side]; exact hside
      rw [addValid_buy b now fresh (normalizeOrder o) hside']
      have Hv' : ∀ x ∈ flattenSide b.asks, validResting x := by rwa [hside] at Hv
      have hcons := matchLevels_consumed b.symbol (normalizeOrder o).id now
        (fun p => decide (p ≤ (normalizeOrder o).price)) b.asks
        (normalizeOrder o).remaining_quantity fresh Hv'
      generalize hR : matchLevels b.symbol (normalizeOrder o).id now
        (fun p => decide (p ≤ (normalizeOrder o).price))
        (normalizeOrder o).remaining_quantity b.asks fresh = R at hcons ⊢
      constructor
      · intro e he
        by_cases hr : R.rem = 0 <;> [rw [if_pos hr] at he; rw [if_neg hr] at he] <;>
          dsimp only [matchInput] at he <;> exact hcons e he
      · intro p
        by_cases hr : R.rem = 0
        · rw [if_pos hr]
          exact Or.inl rfl
        · rw [if_neg hr]
          dsimp only
          simp only [normalizeOrder_id, normalizeOrder_side, normalizeOrder_symbol,
            normalizeOrder_price, normalizeOrder_quantity, normalizeOrder_timestamp, hside]
          dsimp only [restSideOf]
          by_cases hp2 : p = o.price
          · subst hp2
            refine Or.inr ⟨_, ?_,
              insertOrder_getLevel_self o.price _ (by rwa [hside] at hsorted)⟩
            rfl
          · exact Or.inl (insertOrder_getLevel_other o.price _ hp2)
    | Sell =>
      have hside' : (normalizeOrder o).side = OrderSide.Sell := by
        rw [normalizeOrder_side]; exact hside
      rw [addValid_sell b now fresh (normalizeOrder o) hside']
      have Hv' : ∀ x ∈ flattenSide b.bids.reverse, validResting x := by rwa [hside] at Hv
      have hcons := matchLevels_consumed b.symbol (normalizeOrder o).id now
        (fun p => decide ((normalizeOrder o).price ≤ p)) b.bids.reverse
        (normalizeOrder o).remaining_quantity fresh Hv'
      generalize hR : matchLevels b.symbol (normalizeOrder o).id now
        (fun p => decide ((normalizeOrder o).price ≤ p))
        (normalizeOrder o).remaining_quantity b.bids.reverse fresh = R at hcons ⊢
      constructor
      · intro e he
        by_cases hr : R.rem = 0 <;> [rw [if_pos hr] at he; rw [if_neg hr] at he] <;>
          dsimp only [matchInput] at he <;> rw [List.reverse_reverse] at he <;>
          exact hcons e he
      · intro p
        by_cases hr : R.rem = 0
        · rw [if_pos hr]
          exact Or.inl rfl
        · rw [if_neg hr]
          dsimp only
          simp only [normalizeOrder_id, normalizeOrder_side, normalizeOrder_symbol,
            normalizeOrder_price, normalizeOrder_quantity, normalizeOrder_timestamp, hside]
          dsimp only [restSideOf]
          by_cases hp2 : p = o.price
          · subst hp2
            refine Or.inr ⟨_, ?_,
              insertOrder_getLevel_self o.price _ (by rwa [hside] at hsorted)⟩
            rfl
          · exact Or.inl (insertOrder_getLevel_other o.price _ hp2)
  · have hrej : o.symbol ≠ b.symbol ∨ o.price ≤ 0 ∨ o.quantity = 0 := by
      by_contra hcon
      push_neg at hcon
      exact hval ⟨hcon.1, hcon.2.1, hcon.2.2⟩
    rw [add_order_rejected_eq b now fresh o hrej]
    exact ⟨fun e he => ⟨e.2, he, 0, Or.inl (List.drop_zero _).symm⟩, fun p => Or.inl rfl⟩

theorem C10_frame_condition_witness :
    (∀ x ∈ flattenSide (matchInput sampleBook sampleBuyCross.side), validResting x) ∧
    SortedSide (restSideOf sampleBook sampleBuyCross.side) ∧
    ((∀ e ∈ matchInput (sampleBook.add_order 9 70 sampleBuyCross).book sampleBuyCross.side,
        ∃ q, (e.1, q) ∈ matchInput sampleBook sampleBuyCross.side ∧ consumedFrom q e.2) ∧
     (∀ p, getLevel (restSideOf (sampleBook.add_order 9 70 sampleBuyCross).book
            sampleBuyCross.side) p =
          getLevel (restSideOf sampleBook sampleBuyCross.side) p ∨
        ∃ o2, o2.id = sampleBuyCross.id ∧
          getLevel (restSideOf (sampleBook.add_order 9 70 sampleBuyCross).book
              sampleBuyCross.side) p =
            getLevel (restSideOf sampleBook sampleBuyCross.side) p ++ [o2])) :=
  ⟨by decide, by decide,
   C10_frame_condition sampleBook 9 70 sampleBuyCross (by decide) (by decide)⟩

/-- C5: FIFO time priority within a price level.  On the matched side every
surviving level's identifier sequence is a suffix drop of the same level's
identifier sequence before the call — matching consumed from the head and
never reordered — so any two resting orders at the same price keep their
arrival order.  On the resting side, a taker that is not fully filled is
appended at the back of its price's queue (created if absent), all other
levels untouched, so arrival order within a level is insertion order. -/
theorem C5_fifo_time_priority (b : OrderBook) (now fresh : Nat) (o : Order)
    (hsym : o.symbol = b.symbol) (hp : 0 < o.price) (hq : o.quantity ≠ 0)
    (Hv : ∀ x ∈ flattenSide (matchInput b o.side), validResting x)
    (hsorted : SortedSide (restSideOf b o.side)) :
    (∀ e ∈ matchInput (b.add_order now fresh o).book o.side,
      ∃ q, (e.1, q) ∈ matchInput b o.side ∧
        ∃ k, e.2.map (fun x => x.id) = (q.map (fun x => x.id)).drop k) ∧
    ((b.add_order now fresh o).status ≠ OrderStatus.Filled →
      ∃ o2, o2.id = o.id ∧
        getLevel (restSideOf (b.add_order now fresh o).book o.side) o.price =
          getLevel (restSideOf b o.side) o.price ++ [o2] ∧
        ∀ p, p ≠ o.price →
          getLevel (restSideOf (b.add_order now fresh o).book o.side) p =
            getLevel (restSideOf b o.side) p) := by
  rw [add_order_valid_eq b now fresh o hsym hp hq]
  cases hside : o.side with
  | Buy =>
    have hside' : (normalizeOrder o).side = OrderSide.Buy := by
      rw [normalizeOrder_side]; exact hside
    rw [addValid_buy b now fresh (normalizeOrder o) hside']
    have Hv' : ∀ x ∈ flattenSide b.asks, validResting x := by rwa [hside] at Hv
    have hcons := matchLevels_consumed b.symbol (normalizeOrder o).id now
      (fun p => decide (p ≤ (normalizeOrder o).price)) b.asks
      (normalizeOrder o).remaining_quantity fresh Hv'
    generalize hR : matchLevels b.symbol (normalizeOrder o).id now
      (fun p => decide (p ≤ (normalizeOrder o).price))
      (normalizeOrder o).remaining_quantity b.asks fresh = R at hcons ⊢
    constructor
    · intro e he
      by_cases hr : R.rem = 0 <;> [rw [if_pos hr] at he; rw [if_neg hr] at he] <;>
        dsimp only [matchInput] at he
      · obtain ⟨q, hq2, hc⟩ := hcons e he
        exact ⟨q, hq2, consumedFrom_ids hc⟩
      · obtain ⟨q, hq2, hc⟩ := hcons e he
        exact ⟨q, hq2, consumedFrom_ids hc⟩
    · intro hnf
      by_cases hr : R.rem = 0
      · rw [if_pos hr] at hnf
        exact absurd rfl hnf
      · rw [if_neg hr] at hnf ⊢
        dsimp only
        simp only [normalizeOrder_id, normalizeOrder_side, normalizeOrder_symbol,
          normalizeOrder_price, normalizeOrder_quantity, normalizeOrder_timestamp, hside]
        dsimp only [restSideOf]
        refine ⟨_, ?_, insertOrder_getLevel_self o.price _ (by rwa [hside] at hsorted), ?_⟩
        · rfl
        · intro p hp2
          exact insertOrder_getLevel_other o.price _ hp2
  | Sell =>
    have hside' : (normalizeOrder o).side = OrderSide.Sell := by
      rw [normalizeOrder_side]; exact hside
    rw [addValid_sell b now fresh (normalizeOrder o) hside']
    have Hv' : ∀ x ∈ flattenSide b.bids.reverse, validResting x := by rwa [hside] at Hv
    have hcons := matchLevels_consumed b.symbol (normalizeOrder o).id now
      (fun p => decide ((normalizeOrder o).price ≤ p)) b.bids.reverse
      (normalizeOrder o).remaining_quantity fresh Hv'
    generalize hR : matchLevels b.symbol (normalizeOrder o).id now
      (fun p => decide ((normalizeOrder o).price ≤ p))
      (normalizeOrder o).remaining_quantity b.bids.reverse fresh = R at hcons ⊢
    constructor
    · intro e he
      by_cases hr : R.rem = 0 <;> [rw [if_pos hr] at he; rw [if_neg hr] at he] <;>
        dsimp only [matchInput] at he <;> rw [List.reverse_reverse] at he
      · obtain ⟨q, hq2, hc⟩ := hcons e he
        exact ⟨q, hq2, consumedFrom_ids hc⟩
      · obtain ⟨q, hq2, hc⟩ := hcons e he
        exact ⟨q, hq2, consumedFrom_ids hc⟩
    · intro hnf
      by_cases hr : R.rem = 0
      · rw [if_pos hr] at hnf
        exact absurd rfl hnf
      · rw [if_neg hr] at hnf ⊢
        dsimp only
        simp only [normalizeOrder_id, normalizeOrder_side, normalizeOrder_symbol,
          normalizeOrder_price, normalizeOrder_quantity, normalizeOrder_timestamp, hside]
        dsimp only [restSideOf]
        refine ⟨_, ?_, insertOrder_getLevel_self o.price _ (by rwa [hside] at hsorted), ?_⟩
        · rfl
        · intro p hp2
          exact insertOrder_getLevel_other o.price _ hp2

/-- A buy order that consumes the sample book's best ask level and rests. -/
def sampleBuyBig : Order :=
  { id := 4, side := OrderSide.Buy, symbol := "TEST", price := 1000, quantity := 25,
    timestamp := 3, status := OrderStatus.New, remaining_quantity := 25 }

theorem C5_fifo_time_priority_witness :
    sampleBuyBig.symbol = sampleBook.symbol ∧ 0 < sampleBuyBig.price ∧
    sampleBuyBig.quantity ≠ 0 ∧
    (∀ x ∈ flattenSide (matchInput sampleBook sampleBuyBig.side), validResting x) ∧
    SortedSide (restSideOf sampleBook sampleBuyBig.side) ∧
    ((∀ e ∈ matchInput (sampleBook.add_order 11 80 sampleBuyBig).book sampleBuyBig.side,
        ∃ q, (e.1, q) ∈ matchInput sampleBook sampleBuyBig.side ∧
          ∃ k, e.2.map (fun x => x.id) = (q.map (fun x => x.id)).drop k) ∧
     ((sampleBook.add_order 11 80 sampleBuyBig).status ≠ OrderStatus.Filled →
       ∃ o2, o2.id = sampleBuyBig.id ∧
         getLevel (restSideOf (sampleBook.add_order 11 80 sampleBuyBig).book
             sampleBuyBig.side) sampleBuyBig.price =
           getLevel (restSideOf sampleBook sampleBuyBig.side) sampleBuyBig.price ++ [o2] ∧
         ∀ p, p ≠ sampleBuyBig.price →
           getLevel (restSideOf (sampleBook.add_order 11 80 sampleBuyBig).book
               sampleBuyBig.side) p =
             getLevel (restSideOf sampleBook sampleBuyBig.side) p)) :=
  ⟨by decide, by decide, by decide, by decide, by decide,
   C5_fifo_time_priority sampleBook 11 80 sampleBuyBig
     (by decide) (by decide) (by decide) (by decide) (by decide)⟩

/-- C7: every trade produced by `add_order` carries the resting maker's
limit price — there is a maker on the matched side whose id and price the
trade records — and consequently, under price-key coherence of the book, a
buy taker never pays above its limit and a sell taker never receives below
its limit. -/
theorem C7_trade_price_is_maker_price (b : OrderBook) (now fresh : Nat) (o : Order)
    (hcoh : ∀ e ∈ matchInput b o.side, ∀ x ∈ e.2, x.price = e.1) :
    ∀ t ∈ (b.add_order now fresh o).trades,
      (∃ m ∈ flattenSide (matchInput b o.side),
        t.maker_order_id = m.id ∧ t.price = m.price ∧ t.taker_order_id = o.id) ∧
      (o.side = OrderSide.Buy → t.price ≤ o.price) ∧
      (o.side = OrderSide.Sell → o.price ≤ t.price) := by
  by_cases hval : o.symbol = b.symbol ∧ 0 < o.price ∧ o.quantity ≠ 0
  · obtain ⟨hsym, hp, hq⟩ := hval
    rw [add_order_valid_eq b now fresh o hsym hp hq]
    cases hside : o.side with
    | Buy =>
      have hside' : (normalizeOrder o).side = OrderSide.Buy := by
        rw [normalizeOrder_side]; exact hside
      rw [addValid_buy b now fresh (normalizeOrder o) hside']
      have hcoh' : ∀ e ∈ b.asks, ∀ x ∈ e.2, x.price = e.1 := by rwa [hside] at hcoh
      have htr := matchLevels_trades b.symbol (normalizeOrder o).id now
        (fun p => decide (p ≤ (normalizeOrder o).price)) b.asks
        (normalizeOrder o).remaining_quantity fresh hcoh'
      generalize hR : matchLevels b.symbol (normalizeOrder o).id now
        (fun p => decide (p ≤ (normalizeOrder o).price))
        (normalizeOrder o).remaining_quantity b.asks fresh = R at htr ⊢
      intro t ht
      have ht' : t ∈ R.trades := by
        by_cases hr : R.rem = 0 <;> [rw [if_pos hr] at ht; rw [if_neg hr] at ht] <;>
          exact ht
      obtain ⟨hcross, m, hm, h1, h2, h3, _, _, _⟩ := htr t ht'
      refine ⟨⟨m, hm, h1, h2, by rw [h3, normalizeOrder_id]⟩, ?_, ?_⟩
      · intro _
        have h4 := of_decide_eq_true hcross
        rwa [normalizeOrder_price] at h4
      · intro hcontra
        cases hcontra
    | Sell =>
      have hside' : (normalizeOrder o).side = OrderSide.Sell := by
        rw [normalizeOrder_side]; exact hside
      rw [addValid_sell b now fresh (normalizeOrder o) hside']
      have hcoh' : ∀ e ∈ b.bids.reverse, ∀ x ∈ e.2, x.price = e.1 := by rwa [hside] at hcoh
      have htr := matchLevels_trades b.symbol (normalizeOrder o).id now
        (fun p => decide ((normalizeOrder o).price ≤ p)) b.bids.reverse
        (normalizeOrder o).remaining_quantity fresh hcoh'
      generalize hR : matchLevels b.symbol (normalizeOrder o).id now
        (fun p => decide ((normalizeOrder o).price ≤ p))
        (normalizeOrder o).remaining_quantity b.bids.reverse fresh = R at htr ⊢
      intro t ht
      have ht' : t ∈ R.trades := by
        by_cases hr : R.rem = 0 <;> [rw [if_pos hr] at ht; rw [if_neg hr] at ht] <;>
          exact ht
      obtain ⟨hcross, m, hm, h1, h2, h3, _, _, _⟩ := htr t ht'
      refine ⟨⟨m, hm, h1, h2, by rw [h3, normalizeOrder_id]⟩, ?_, ?_⟩
      · intro hcontra
        cases hcontra
      · intro _
        have h4 := of_decide_eq_true hcross
        rwa [normalizeOrder_price] at h4
  · have hrej : o.symbol ≠ b.symbol ∨ o.price ≤ 0 ∨ o.quantity = 0 := by
      by_contra hcon
      push_neg at hcon
      exact hval ⟨hcon.1, hcon.2.1, hcon.2.2⟩
    rw [add_order_rejected_eq b now fresh o hrej]
    intro t ht
    cases ht

theorem C7_trade_price_is_maker_price_witness :
    (∀ e ∈ matchInput sampleBook sampleBuyCross.side, ∀ x ∈ e.2, x.price = e.1) ∧
    (∀ t ∈ (sampleBook.add_order 13 90 sampleBuyCross).trades,
      (∃ m ∈ flattenSide (matchInput sampleBook sampleBuyCross.side),
        t.maker_order_id = m.id ∧ t.price = m.price ∧
        t.taker_order_id = sampleBuyCross.id) ∧
      (sampleBuyCross.side = OrderSide.Buy → t.price ≤ sampleBuyCross.price) ∧
      (sampleBuyCross.side = OrderSide.Sell → sampleBuyCross.price ≤ t.price)) :=
  ⟨by decide, C7_trade_price_is_maker_price sampleBook 13 90 sampleBuyCross (by decide)⟩

/-! ## C2: the non-crossed invariant -/

theorem nonCrossed_elim {b : OrderBook} (h : NonCrossed b) {pb pa : Int}
    (hb : (sideKeys b.bids).getLast? = some pb)
    (ha : (sideKeys b.asks).head? = some pa) : pb < pa := by
  unfold NonCrossed nonCrossedB at h
  rw [hb, ha] at h
  exact of_decide_eq_true h

theorem nonCrossed_intro {b : OrderBook}
    (h : ∀ pb pa, (sideKeys b.bids).getLast? = some pb →
      (sideKeys b.asks).head? = some pa → pb < pa) : NonCrossed b := by
  unfold NonCrossed nonCrossedB
  cases hb : (sideKeys b.bids).getLast? with
  | none => rfl
  | some pb =>
    cases ha : (sideKeys b.asks).head? with
    | none => rfl
    | some pa => exact decide_eq_true (h pb pa hb ha)

theorem exists_head_le {xs : List Int} (hs : xs.Pairwise (fun a b => a < b)) {x : Int}
    (hx : x ∈ xs) : ∃ h, xs.head? = some h ∧ h ≤ x := by
  cases hh : xs.head? with
  | none =>
    rw [List.head?_eq_none_iff.mp hh] at hx
    cases hx
  | some h => exact ⟨h, rfl, sorted_head_le hs hh hx⟩

theorem exists_le_last {xs : List Int} (hs : xs.Pairwise (fun a b => a < b)) {x : Int}
    (hx : x ∈ xs) : ∃ l, xs.getLast? = some l ∧ x ≤ l := by
  cases hl : xs.getLast? with
  | none =>
    rw [List.getLast?_eq_none_iff.mp hl] at hx
    cases hx
  | some l => exact ⟨l, rfl, sorted_le_last hs hl hx⟩

theorem sideKeys_reverse (s : SideMap) : sideKeys s.reverse = (sideKeys s).reverse :=
  List.map_reverse Prod.fst s

theorem flattenSide_reverse_mem {s : SideMap} {x : Order}
    (hx : x ∈ flattenSide s.reverse) : x ∈ flattenSide s := by
  unfold flattenSide at hx ⊢
  obtain ⟨l, hl, hxl⟩ := List.mem_flatten.mp hx
  rw [List.map_reverse, List.mem_reverse] at hl
  exact List.mem_flatten.mpr ⟨l, hl, hxl⟩

/-- C2: after `add_order` on a well-formed book (sorted sides, resting
orders unfilled with positive remainder, previously non-crossed), the book
is non-crossed: the best (highest) bid key is strictly below the best
(lowest) ask key whenever both sides are non-empty.  Moreover the matching
pass consumed all crossing liquidity before the order rested: whenever the
taker rests (status `PartiallyFilled` or `Accepted`), no surviving level of
the matched side crosses the taker's limit price. -/
theorem C2_book_non_crossed (b : OrderBook) (now fresh : Nat) (o : Order)
    (hnc : NonCrossed b) (hsb : SortedSide b.bids) (hsa : SortedSide b.asks)
    (Hvb : ∀ x ∈ flattenSide b.bids, validResting x)
    (Hva : ∀ x ∈ flattenSide b.asks, validResting x) :
    NonCrossed (b.add_order now fresh o).book ∧
    ((b.add_order now fresh o).status = OrderStatus.PartiallyFilled ∨
      (b.add_order now fresh o).status = OrderStatus.Accepted →
      ∀ e ∈ matchInput (b.add_order now fresh o).book o.side,
        (o.side = OrderSide.Buy → o.price < e.1) ∧
        (o.side = OrderSide.Sell → e.1 < o.price)) := by
  by_cases hval : o.symbol = b.symbol ∧ 0 < o.price ∧ o.quantity ≠ 0
  · obtain ⟨hsym, hp0, hq0⟩ := hval
    rw [add_order_valid_eq b now fresh o hsym hp0 hq0]
    cases hside : o.side with
    | Buy =>
      have hside' : (normalizeOrder o).side = OrderSide.Buy := by
        rw [normalizeOrder_side]; exact hside
      rw [addValid_buy b now fresh (normalizeOrder o) hside']
      have hsub := matchLevels_keys_sublist b.symbol (normalizeOrder o).id now
        (fun p => decide (p ≤ (normalizeOrder o).price)) b.asks
        (normalizeOrder o).remaining_quantity fresh
      have hmono : (sideKeys b.asks).Pairwise
          (fun a c => decide (c ≤ (normalizeOrder o).price) = true →
            decide (a ≤ (normalizeOrder o).price) = true) :=
        hsa.imp (fun hlt hc =>
          decide_eq_true (le_of_lt (lt_of_lt_of_le hlt (of_decide_eq_true hc))))
      have hgone := matchLevels_gone b.symbol (normalizeOrder o).id now
        (fun p => decide (p ≤ (normalizeOrder o).price)) b.asks
        (normalizeOrder o).remaining_quantity fresh Hva hmono
      generalize hR : matchLevels b.symbol (normalizeOrder o).id now
        (fun p => decide (p ≤ (normalizeOrder o).price))
        (normalizeOrder o).remaining_quantity b.asks fresh = R at hsub hgone ⊢
      constructor
      · by_cases hr : R.rem = 0
        · rw [if_pos hr]
          refine nonCrossed_intro ?_
          intro pb pa hb' ha'
          have ha2 : (sideKeys R.levels).head? = some pa := ha'
          have hpaA : pa ∈ sideKeys b.asks := hsub.subset (List.mem_of_mem_head? ha2)
          obtain ⟨a0, hh, ha0le⟩ := exists_head_le hsa hpaA
          exact lt_of_lt_of_le (nonCrossed_elim hnc hb' hh) ha0le
        · rw [if_neg hr]
          refine nonCrossed_intro ?_
          intro pb pa hb' ha'
          have ha2 : (sideKeys R.levels).head? = some pa := ha'
          have hpaR : pa ∈ sideKeys R.levels := List.mem_of_mem_head? ha2
          obtain ⟨e, heR, hefst⟩ := List.mem_map.mp hpaR
          have hplt : (normalizeOrder o).price < e.1 :=
            lt_of_not_le (of_decide_eq_false (hgone (by omega) e heR))
          have hb2 : (sideKeys (insertOrder b.bids (normalizeOrder o).price
              { normalizeOrder o with
                  remaining_quantity := R.rem,
                  status := if R.rem < (normalizeOrder o).quantity
                    then OrderStatus.PartiallyFilled
                    else OrderStatus.Accepted })).getLast? = some pb := hb'
          have hpbI := List.mem_of_mem_getLast? hb2
          rcases insertOrder_keys_mem b.bids (normalizeOrder o).price _ pb hpbI with hpb | hpb
          · rw [hpb, ← hefst]
            exact hplt
          · obtain ⟨L, hL, hpbL⟩ := exists_le_last hsb hpb
            obtain ⟨a0, hh, ha0le⟩ := exists_head_le hsa (hsub.subset hpaR)
            exact lt_of_le_of_lt hpbL
              (lt_of_lt_of_le (nonCrossed_elim hnc hL hh) ha0le)
      · intro hstat e he
        by_cases hr : R.rem = 0
        · rw [if_pos hr] at hstat
          rcases hstat with h | h <;> simp at h
        · rw [if_neg hr] at he
          dsimp only [matchInput] at he
          have hplt : (normalizeOrder o).price < e.1 :=
            lt_of_not_le (of_decide_eq_false (hgone (by omega) e he))
          rw [normalizeOrder_price] at hplt
          exact ⟨fun _ => hplt, fun hcon => absurd hcon (by decide)⟩
    | Sell =>
      have hside' : (normalizeOrder o).side = OrderSide.Sell := by
        rw [normalizeOrder_side]; exact hside
      rw [addValid_sell b now fresh (normalizeOrder o) hside']
      have hsub := matchLevels_keys_sublist b.symbol (normalizeOrder o).id now
        (fun p => decide ((normalizeOrder o).price ≤ p)) b.bids.reverse
        (normalizeOrder o).remaining_quantity fresh
      have hsbrev : (sideKeys b.bids.reverse).Pairwise (fun a c => c < a) := by
        rw [sideKeys_reverse]
        exact List.pairwise_reverse.mpr hsb
      have hmono : (sideKeys b.bids.reverse).Pairwise
          (fun a c => decide ((normalizeOrder o).price ≤ c) = true →
            decide ((normalizeOrder o).price ≤ a) = true) :=
        hsbrev.imp (fun hlt hc =>
          decide_eq_true (le_trans (of_decide_eq_true hc) (le_of_lt hlt)))
      have Hvb' : ∀ x ∈ flattenSide b.bids.reverse, validResting x := fun x hx =>
        Hvb x (flattenSide_reverse_mem hx)
      have hgone := matchLevels_gone b.symbol (normalizeOrder o).id now
        (fun p => decide ((normalizeOrder o).price ≤ p)) b.bids.reverse
        (normalizeOrder o).remaining_quantity fresh Hvb' hmono
      generalize hR : matchLevels b.symbol (normalizeOrder o).id now
        (fun p => decide ((normalizeOrder o).price ≤ p))
        (normalizeOrder o).remaining_quantity b.bids.reverse fresh = R at hsub hgone ⊢
      have hkeysub : ∀ {x : Int}, x ∈ sideKeys R.levels → x ∈ sideKeys b.bids := by
        intro x hx
        have h3 := hsub.subset hx
        rw [sideKeys_reverse, List.mem_reverse] at h3
        exact h3
      constructor
      · by_cases hr : R.rem = 0
        · rw [if_pos hr]
          refine nonCrossed_intro ?_
          intro pb pa hb' ha'
          have hb2 : (sideKeys R.levels.reverse).getLast? = some pb := hb'
          rw [sideKeys_reverse, List.getLast?_reverse] at hb2
          have hpbB : pb ∈ sideKeys b.bids := hkeysub (List.mem_of_mem_head? hb2)
          obtain ⟨L, hL, hpbL⟩ := exists_le_last hsb hpbB
          exact lt_of_le_of_lt hpbL (nonCrossed_elim hnc hL ha')
        · rw [if_neg hr]
          refine nonCrossed_intro ?_
          intro pb pa hb' ha'
          have hb2 : (sideKeys R.levels.reverse).getLast? = some pb := hb'
          rw [sideKeys_reverse, List.getLast?_reverse] at hb2
          have hpbR : pb ∈ sideKeys R.levels := List.mem_of_mem_head? hb2
          obtain ⟨e, heR, hefst⟩ := List.mem_map.mp hpbR
          have hplt : e.1 < (normalizeOrder o).price :=
            lt_of_not_le (of_decide_eq_false (hgone (by omega) e heR))
          have ha2 : (sideKeys (insertOrder b.asks (normalizeOrder o).price
              { normalizeOrder o with
                  remaining_quantity := R.rem,
                  status := if R.rem < (normalizeOrder o).quantity
                    then OrderStatus.PartiallyFilled
                    else OrderStatus.Accepted })).head? = some pa := ha'
          have hpaI := List.mem_of_mem_head? ha2
          rcases insertOrder_keys_mem b.asks (normalizeOrder o).price _ pa hpaI with hpa | hpa
          · rw [hpa, ← hefst]
            exact hplt
          · obtain ⟨a0, hh, ha0le⟩ := exists_head_le hsa hpa
            obtain ⟨L, hL, hpbL⟩ := exists_le_last hsb (hkeysub hpbR)
            exact lt_of_le_of_lt hpbL
              (lt_of_lt_of_le (nonCrossed_elim hnc hL hh) ha0le)
      · intro hstat e he
        by_cases hr : R.rem = 0
        · rw [if_pos hr] at hstat
          rcases hstat with h | h <;> simp at h
        · rw [if_neg hr] at he
          dsimp only [matchInput] at he
          rw [List.reverse_reverse] at he
          have hplt : e.1 < (normalizeOrder o).price :=
            lt_of_not_le (of_decide_eq_false (hgone (by omega) e he))
          rw [normalizeOrder_price] at hplt
          exact ⟨fun hcon => absurd hcon (by decide), fun _ => hplt⟩
  · have hrej : o.symbol ≠ b.symbol ∨ o.price ≤ 0 ∨ o.quantity = 0 := by
      by_contra hcon
      push_neg at hcon
      exact hval ⟨hcon.1, hcon.2.1, hcon.2.2⟩
    rw [add_order_rejected_eq b now fresh o hrej]
    refine ⟨hnc, ?_⟩
    intro hstat
    rcases hstat with h | h <;> simp at h

theorem C2_book_non_crossed_witness :
    NonCrossed sampleBook ∧ SortedSide sampleBook.bids ∧ SortedSide sampleBook.asks ∧
    (∀ x ∈ flattenSide sampleBook.bids, validResting x) ∧
    (∀ x ∈ flattenSide sampleBook.asks, validResting x) ∧
    (NonCrossed (sampleBook.add_order 15 100 sampleBuyBig).book ∧
     ((sampleBook.add_order 15 100 sampleBuyBig).status = OrderStatus.PartiallyFilled ∨
       (sampleBook.add_order 15 100 sampleBuyBig).status = OrderStatus.Accepted →
       ∀ e ∈ matchInput (sampleBook.add_order 15 100 sampleBuyBig).book sampleBuyBig.side,
         (sampleBuyBig.side = OrderSide.Buy → sampleBuyBig.price < e.1) ∧
         (sampleBuyBig.side = OrderSide.Sell → e.1 < sampleBuyBig.price))) :=
  ⟨by decide, by decide, by decide, by decide, by decide,
   C2_book_non_crossed sampleBook 15 100 sampleBuyBig
     (by decide) (by decide) (by decide) (by decide) (by decide)⟩
